import Mathlib

/-!
Verification development for the md2word repository (src/converter.py and
src/main.py). The Python code is shallowly embedded: style dictionaries are
association lists from field names to a `Value` type covering the value
shapes the program's style configurations use (strings, ints, floats
modelled as exact rationals, booleans, and RGB triples, which in Python are
either tuples or JSON-style lists); the HTML node trees produced by the
external markdown parser are a small inductive type; the stateful
docx-building code is modelled by explicit state passing returning the runs
and blocks it appends.
-/

namespace MdToWord

/-- Possible values of one field of a style dictionary entry. Python floats
are modelled as exact rationals (Python's json round-trips floats exactly via
repr). `rgbTuple` is a Python 3-tuple, `rgbList` a Python/JSON 3-list; the
two compare unequal in Python, as here. -/
inductive Value where
  | str (s : String)
  | int (n : Int)
  | float (q : ℚ)
  | bool (b : Bool)
  | rgbTuple (r g b : Nat)
  | rgbList (r g b : Nat)
deriving DecidableEq

/-- Numeric view of a value, used where Python would do arithmetic on it. -/
def asNum : Value → Option ℚ
  | .int n => some (n : ℚ)
  | .float q => some q
  | _ => none

/-- True for a Python tuple of three channel values. -/
def Value.isTup : Value → Bool
  | .rgbTuple _ _ _ => true
  | _ => false

/-- True for a JSON-style list of three channel values. -/
def Value.isLst : Value → Bool
  | .rgbList _ _ _ => true
  | _ => false

/-- A style entry: an ordered Python dict from field name to value. -/
abbrev Entry := List (String × Value)

/-- A style sheet: an ordered Python dict from style key to entry. -/
abbrev Sheet := List (String × Entry)

/-- Dict lookup: the value at the first matching key, as Python `d[k]` /
`d.get(k)`. -/
def alookup {α : Type} : List (String × α) → String → Option α
  | [], _ => none
  | (k, v) :: rest, key => if k = key then some v else alookup rest key

/-- Python `k in d`. -/
def ahasKey {α : Type} (l : List (String × α)) (key : String) : Bool :=
  l.any (fun p => p.1 = key)

/-- Transform the value stored at one key, leaving position and the other
pairs unchanged (Python `d[k] = f(d[k])` when `k in d`, a no-op otherwise). -/
def mapAtKey {α : Type} (key : String) (f : α → α) (l : List (String × α)) :
    List (String × α) :=
  l.map (fun p => if p.1 = key then (p.1, f p.2) else p)

/-- Python `d[k] = v`: replace in place when the key exists, append at the
end otherwise (insertion-ordered dicts). -/
def aset {α : Type} (l : List (String × α)) (key : String) (v : α) :
    List (String × α) :=
  if ahasKey l key then mapAtKey key (fun _ => v) l else l ++ [(key, v)]

/-- Python `base.update(upd)`: assign every pair of `upd` into `base` in
order. -/
def dictUpdate (base upd : Entry) : Entry :=
  upd.foldl (fun b p => aset b p.1 p.2) base

/-- The 'H1' default entry of `MarkdownToWordConverter.DEFAULT_STYLES_CONFIG`. -/
def defaultH1 : Entry :=
  [("font_name", .str "黑体"), ("font_size", .int 24), ("bold", .bool true),
   ("italic", .bool false), ("color_rgb", .rgbTuple 0 0 0),
   ("space_before_pt", .int 12), ("space_after_pt", .int 6),
   ("alignment", .str "LEFT")]

/-- The 'H2' default entry. -/
def defaultH2 : Entry :=
  [("font_name", .str "黑体"), ("font_size", .int 20), ("bold", .bool true),
   ("italic", .bool false), ("color_rgb", .rgbTuple 0 0 0),
   ("space_before_pt", .int 10), ("space_after_pt", .int 5),
   ("alignment", .str "LEFT")]

/-- The 'H3' default entry. -/
def defaultH3 : Entry :=
  [("font_name", .str "黑体"), ("font_size", .int 18), ("bold", .bool true),
   ("italic", .bool false), ("color_rgb", .rgbTuple 0 0 0),
   ("space_before_pt", .int 8), ("space_after_pt", .int 4),
   ("alignment", .str "LEFT")]

/-- The 'H4' default entry. -/
def defaultH4 : Entry :=
  [("font_name", .str "宋体"), ("font_size", .int 16), ("bold", .bool true),
   ("italic", .bool false), ("color_rgb", .rgbTuple 50 50 50),
   ("space_before_pt", .int 6), ("space_after_pt", .int 3),
   ("alignment", .str "LEFT")]

/-- The 'H5' default entry. -/
def defaultH5 : Entry :=
  [("font_name", .str "宋体"), ("font_size", .int 14), ("bold", .bool true),
   ("italic", .bool false), ("color_rgb", .rgbTuple 70 70 70),
   ("space_before_pt", .int 5), ("space_after_pt", .int 2),
   ("alignment", .str "LEFT")]

/-- The 'H6' default entry. -/
def defaultH6 : Entry :=
  [("font_name", .str "宋体"), ("font_size", .int 12), ("bold", .bool true),
   ("italic", .bool false), ("color_rgb", .rgbTuple 90 90 90),
   ("space_before_pt", .int 4), ("space_after_pt", .int 2),
   ("alignment", .str "LEFT")]

/-- The 'paragraph' default entry. -/
def defaultParagraph : Entry :=
  [("font_name", .str "宋体"), ("font_size", .int 12), ("bold", .bool false),
   ("italic", .bool false), ("color_rgb", .rgbTuple 0 0 0),
   ("line_spacing", .float (3/2)), ("first_line_indent_cm", .float 0),
   ("space_before_pt", .int 0), ("space_after_pt", .int 6),
   ("alignment", .str "LEFT")]

/-- The 'code_block' default entry. -/
def defaultCodeBlock : Entry :=
  [("font_name", .str "Consolas"), ("font_size", .int 10),
   ("bold", .bool false), ("italic", .bool false),
   ("color_rgb", .rgbTuple 0 0 0), ("background_color", .str "F0F0F0"),
   ("line_spacing", .float 1), ("space_before_pt", .int 6),
   ("space_after_pt", .int 6)]

/-- The 'inline_code' default entry (note: no absolute 'font_size' field,
only the 'font_size_ratio'). -/
def defaultInlineCode : Entry :=
  [("font_name", .str "Consolas"), ("font_size_ratio", .float (9/10)),
   ("color_rgb", .rgbTuple 50 50 50), ("background_color", .str "EEEEEE")]

/-- `MarkdownToWordConverter.DEFAULT_STYLES_CONFIG`. -/
def DEFAULT_STYLES_CONFIG : Sheet :=
  [("H1", defaultH1), ("H2", defaultH2), ("H3", defaultH3),
   ("H4", defaultH4), ("H5", defaultH5), ("H6", defaultH6),
   ("paragraph", defaultParagraph), ("code_block", defaultCodeBlock),
   ("inline_code", defaultInlineCode)]

/-- Python tuple(...) applied to a color list, as `_ensure_rgb_tuples` does
when the stored value is a list; any other value is left alone. -/
def tuplifyColor : Value → Value
  | .rgbList r g b => .rgbTuple r g b
  | v => v

/-- Conversion applied by `save_styles` to a 'color_rgb' value: a tuple is
turned into a list for serialization, anything else is kept. -/
def listifyColor : Value → Value
  | .rgbTuple r g b => .rgbList r g b
  | v => v

/-- `MarkdownToWordConverter._ensure_rgb_tuples` on one entry: the
'color_rgb' field, when it is a list, becomes a tuple in place. -/
def ensureEntry (e : Entry) : Entry := mapAtKey "color_rgb" tuplifyColor e

/-- `MarkdownToWordConverter._ensure_rgb_tuples` over the whole sheet. -/
def ensureRgbTuples (s : Sheet) : Sheet :=
  s.map (fun p => (p.1, ensureEntry p.2))

/-- The serializable copy `save_styles` builds before `json.dump`: each
entry is copied with its 'color_rgb' tuple converted to a list. -/
def saveStylesSerial (s : Sheet) : Sheet :=
  s.map (fun p => (p.1, mapAtKey "color_rgb" listifyColor p.2))

/-- What survives `json.dump` followed by `json.load`: dict order, strings,
ints, exact floats and booleans are preserved; any remaining Python tuple
comes back as a JSON list. -/
def jsonValue : Value → Value
  | .rgbTuple r g b => .rgbList r g b
  | v => v

/-- JSON round trip of one entry. -/
def jsonEntry (e : Entry) : Entry := e.map (fun p => (p.1, jsonValue p.2))

/-- JSON round trip of a whole sheet. -/
def jsonSheet (s : Sheet) : Sheet := s.map (fun p => (p.1, jsonEntry p.2))

/-- One iteration of the merge loop in `load_styles`: a loaded style whose
key exists in the base is merged field-by-field with `update`, a new style
is appended as a copy. -/
def mergeStep (b : Sheet) (p : String × Entry) : Sheet :=
  if ahasKey b p.1 then mapAtKey p.1 (fun e => dictUpdate e p.2) b
  else b ++ [p]

/-- The whole merge loop of `load_styles` over the loaded configuration,
starting from a fresh copy of the defaults. -/
def mergeLoaded (loaded : Sheet) : Sheet :=
  loaded.foldl mergeStep DEFAULT_STYLES_CONFIG

/-- `load_styles` on a successfully parsed configuration file: merge into
defaults, then `_ensure_rgb_tuples` (called once inside the try block and
once more at the end of the method). -/
def loadStylesFromJson (loaded : Sheet) : Sheet :=
  ensureRgbTuples (ensureRgbTuples (mergeLoaded loaded))

/-- `load_styles` overall: `some loaded` is the successfully parsed file,
`none` covers the missing-file and parse-failure paths, which reset to the
defaults before the final `_ensure_rgb_tuples`. -/
def loadStylesOp : Option Sheet → Sheet
  | some l => loadStylesFromJson l
  | none => ensureRgbTuples DEFAULT_STYLES_CONFIG

/-- `save_styles` followed by `load_styles` of the written file, with the
JSON transport made explicit. -/
def saveThenLoad (s : Sheet) : Sheet :=
  loadStylesFromJson (jsonSheet (saveStylesSerial s))

/-- `MarkdownToWordConverter.__init__`: copy the given configuration (or the
defaults) and normalize color lists to tuples. -/
def initStylesOp : Option Sheet → Sheet
  | some cfg => ensureRgbTuples cfg
  | none => ensureRgbTuples DEFAULT_STYLES_CONFIG

/-- `MarkdownToWordConverter.set_styles`: copy then `_ensure_rgb_tuples`. -/
def setStylesOp (new : Sheet) : Sheet := ensureRgbTuples new

/-- Pointwise equality of two entries as Python `==` compares dicts:
same value at every field name, insertion order ignored. -/
def entryEqv (e1 e2 : Entry) : Prop := ∀ f, alookup e1 f = alookup e2 f

/-- Lifting of `entryEqv` to optional lookup results. -/
def optEntryEqv : Option Entry → Option Entry → Prop
  | none, none => True
  | some e1, some e2 => entryEqv e1 e2
  | _, _ => False

/-- Pointwise equality of two sheets as Python `==` compares dicts of
dicts. -/
def sheetEqv (s1 s2 : Sheet) : Prop :=
  ∀ k, optEntryEqv (alookup s1 k) (alookup s2 k)

/-- Hypothesis check for claim C1: every default style key is present in the
sheet and its entry carries every field of the corresponding built-in
default entry. -/
def defaultsCovered (s : Sheet) : Bool :=
  DEFAULT_STYLES_CONFIG.all (fun p =>
    match alookup s p.1 with
    | some e => p.2.all (fun f => ahasKey e f.1)
    | none => false)

/-- Hypothesis check: every 'color_rgb' field of the sheet holds a Python
tuple of three 8-bit channel values. -/
def colorsTuple8 (s : Sheet) : Bool :=
  s.all (fun p =>
    match alookup p.2 "color_rgb" with
    | some (.rgbTuple r g b) => decide (r < 256) && decide (g < 256) && decide (b < 256)
    | some _ => false
    | none => true)

/-- Hypothesis check: no field other than 'color_rgb' holds a Python tuple
(such a tuple would come back from JSON as a list). -/
def noStrayTuples (s : Sheet) : Bool :=
  s.all (fun p => p.2.all (fun f => f.1 = "color_rgb" || !(f.2.isTup)))

/-- Invariant check for claim C10: no 'color_rgb' value anywhere in the
sheet is a JSON-style list. -/
def noListColors (s : Sheet) : Bool :=
  s.all (fun p =>
    match alookup p.2 "color_rgb" with
    | some v => !(v.isLst)
    | none => true)

/-- Invariant check: every 'color_rgb' value present is a tuple. -/
def tupleColors (s : Sheet) : Bool :=
  s.all (fun p =>
    match alookup p.2 "color_rgb" with
    | some v => v.isTup
    | none => true)

/-- Input-shape check on one entry: every occurrence of a 'color_rgb' field
(all duplicates included) holds either a list or a tuple of channels. -/
def entryColorsOk (e : Entry) : Bool :=
  e.all (fun f => !(f.1 = "color_rgb") || f.2.isLst || f.2.isTup)

/-- Input-shape check for claim C10 over a whole sheet. -/
def colorMembersListOrTuple (s : Sheet) : Bool :=
  s.all (fun p => entryColorsOk p.2)

/-! Code blocks (the 'pre' branch of `_process_html_element`). Text is kept
as a list of characters so that Python string operations stay easy to reason
about. -/

/-- Python whitespace characters stripped by `str.strip()`. -/
def isPyWhitespace (c : Char) : Bool :=
  c = ' ' || c = '\t' || c = '\n' || c = '\r' || c = '\x0b' || c = '\x0c'

/-- Python `s.strip()`: remove leading and trailing whitespace. -/
def pyStrip (s : List Char) : List Char :=
  ((s.dropWhile isPyWhitespace).reverse.dropWhile isPyWhitespace).reverse

/-- Python `code_text.split(chr(10))`: split at every newline, keeping empty
segments, so an empty input gives one empty segment and a trailing newline
produces a trailing empty segment. -/
def splitLines : List Char → List (List Char)
  | [] => [[]]
  | c :: cs =>
    match splitLines cs with
    | l :: ls => if c = '\n' then [] :: l :: ls else (c :: l) :: ls
    | [] => [[]]

/-- Join a list of lines with newline separators (the inverse construction:
what a code block whose text is this sequence of lines looks like). -/
def joinLines : List (List Char) → List Char
  | [] => []
  | [l] => l
  | l :: ls => l ++ '\n' :: joinLines ls

/-- The run-emission loop of the 'pre' branch: one run per split segment, in
order, with `add_break` called after every run except the last (the loop
guard is i < len(lines) - 1). -/
def emitCodeLines : List (List Char) → List (List Char × Bool)
  | [] => []
  | [l] => [(l, false)]
  | l :: ls => (l, true) :: emitCodeLines ls

/-- The code-block paragraph contents emitted for a given code text: split
at newlines, then one literal run per segment with a break between
consecutive runs. -/
def emitCodeBlock (codeText : List Char) : List (List Char × Bool) :=
  emitCodeLines (splitLines codeText)

/-! Preview renderer constants (`WordPreviewWidget.set_content` in
src/main.py) and the document emitter's list indent constants
(`_process_list_item_content` in src/converter.py). -/

/-- The preview's point-to-pixel conversion: every point value (font sizes,
space before/after) is multiplied by 4/3. -/
def previewPtToPx (pt : ℚ) : ℚ := pt * (4 / 3)

/-- The preview's centimeter-to-pixel conversion, used for the first-line
indent: multiply by 37.7952. -/
def previewCmToPx (cm : ℚ) : ℚ := cm * (377952 / 10000)

/-- The preview stylesheet's fixed padding-left for a top-level list
(pixels). -/
def previewListPaddingPx : ℚ := 40

/-- The preview stylesheet's additional padding-left for each nested list
level (pixels). -/
def previewNestedListPaddingPx : ℚ := 20

/-- Left indent, in centimeters, of the bullet paragraph of a list item
processed at the given nesting level: Cm(1.27 * list_level). -/
def liLeftIndentCm (level : Nat) : ℚ := (127 / 100) * level

/-- First-line indent of a list item's bullet paragraph: Cm(-0.635), a
negative offset producing the hanging marker. -/
def liFirstLineIndentCm : ℚ := -(127 / 200)

/-! Inline content (`_add_inline_content_to_paragraph`,
`_add_image_to_paragraph`, `_apply_font_style`). -/

/-- Which branch of the converter produced a run: a plain text node, an
inline code element, flattened link text, one of the image outcomes, or a
line break. -/
inductive RunKind where
  | textRun
  | codeRun
  | linkRun
  | webImg
  | notFoundImg
  | loadErrorImg
  | pictureRun
  | lineBreak
deriving DecidableEq

/-- A docx run as the converter produces it. Fields set by
`_apply_font_style` are `some`; runs the converter leaves unstyled (image
placeholders, break runs) keep `none`, which python-docx treats as
inherit. -/
structure Run where
  kind : RunKind
  text : List Char
  fontName : Option String
  sizePt : Option ℚ
  bold : Option Bool
  italic : Option Bool
  color : Option (Nat × Nat × Nat)
  shading : Option String
deriving DecidableEq

/-- A run with no font styling applied, as `paragraph.add_run(txt)` alone
produces. -/
def plainRun (kind : RunKind) (txt : List Char) : Run :=
  ⟨kind, txt, none, none, none, none, none, none⟩

/-- Size resolution in `_apply_font_style`: an absolute 'font_size' wins;
otherwise 'font_size_ratio' times the base size when both are available;
otherwise the fallback Pt(11). A present but non-numeric size is `none`
(python-docx would reject it). -/
def resolveSize (cfg : Entry) (baseVal : Option Value) : Option ℚ :=
  match alookup cfg "font_size" with
  | some v => asNum v
  | none =>
    match alookup cfg "font_size_ratio", baseVal with
    | some rv, some bv =>
      (asNum bv).bind (fun b => (asNum rv).map (fun r => b * r))
    | _, _ => some 11

/-- The font name `_apply_font_style` uses: the 'font_name' field, default
'Calibri'. -/
def resolveFontName (cfg : Entry) : String :=
  match alookup cfg "font_name" with
  | some (.str s) => s
  | _ => "Calibri"

/-- Boolean field with Python default False. -/
def getBoolField (cfg : Entry) (key : String) : Bool :=
  match alookup cfg key with
  | some (.bool b) => b
  | _ => false

/-- The run color `_apply_font_style` sets: a 'color_rgb' that is a (truthy)
tuple or list of length 3. -/
def resolveColor (cfg : Entry) : Option (Nat × Nat × Nat) :=
  match alookup cfg "color_rgb" with
  | some (.rgbTuple r g b) => some (r, g, b)
  | some (.rgbList r g b) => some (r, g, b)
  | _ => none

/-- Run shading set from a truthy 'background_color' string. -/
def resolveShading (cfg : Entry) : Option String :=
  match alookup cfg "background_color" with
  | some (.str s) => if s = "" then none else some s
  | _ => none

/-- `_apply_font_style` as a whole: build the styled run for the given text
from a style entry and the optional base font size value. -/
def applyFontStyle (kind : RunKind) (txt : List Char) (cfg : Entry)
    (baseVal : Option Value) : Run :=
  { kind := kind, text := txt,
    fontName := some (resolveFontName cfg),
    sizePt := resolveSize cfg baseVal,
    bold := some (getBoolField cfg "bold"),
    italic := some (getBoolField cfg "italic"),
    color := resolveColor cfg,
    shading := resolveShading cfg }

/-- A parsed HTML node: a NavigableString or a Tag with attributes and
children. -/
inductive Node where
  | text (s : List Char)
  | elem (tag : String) (attrs : List (String × List Char)) (children : List Node)

/-- External collaborators of the converter: the style sheet it reads, the
source document's directory, and the file-system / Qt / python-docx calls
image handling makes (`os.path.exists`, `QUrl.toLocalFile`,
`add_picture` succeeding or raising). -/
structure Env where
  styles : Sheet
  mdDir : List Char
  fsExists : List Char → Bool
  toLocalFile : List Char → List Char
  addPictureOk : List Char → Bool

/-- Python `os.path.isabs` (POSIX). -/
def isAbsPath : List Char → Bool
  | '/' :: _ => true
  | _ => false

/-- Python `os.path.join` for the shapes the converter uses. -/
def pathJoin (a b : List Char) : List Char :=
  if isAbsPath b then b
  else if a = [] then b
  else if a.getLast? = some '/' then a ++ b
  else a ++ '/' :: b

/-- Python `os.path.basename` (POSIX): everything after the last slash. -/
def pyBasename (cs : List Char) : List Char :=
  (cs.reverse.takeWhile (fun c => !(c = '/'))).reverse

/-- Python `alt_text or img_src`: the alt text unless it is empty. -/
def altOr (alt src : List Char) : List Char := if alt = [] then src else alt

/-- The web-image placeholder run: bracketed text, italic, otherwise
unstyled. -/
def webImagePlaceholder (src alt : List Char) : Run :=
  { plainRun .webImg
      ("[Web Image: ".toList ++ altOr alt src ++ "]".toList) with
    italic := some true }

/-- The not-found placeholder run. -/
def notFoundPlaceholder (src alt : List Char) : Run :=
  plainRun .notFoundImg ("[Image not found: ".toList ++ altOr alt src ++ "]".toList)

/-- The load-error placeholder run (alt text, or the basename of the
resolved path when the alt is empty). -/
def loadErrorPlaceholder (localPath alt : List Char) : Run :=
  plainRun .loadErrorImg
    ("[Image load error: ".toList ++ altOr alt (pyBasename localPath) ++ "]".toList)

/-- The local_img_path computed by `_add_image_to_paragraph`: a file URL is
converted by Qt, a relative path is joined to the source directory, an
absolute path is kept, anything else stays empty. -/
def imgLocalPath (env : Env) (src : List Char) : List Char :=
  if "file:///".toList.isPrefixOf src then env.toLocalFile src
  else if !(isAbsPath src) && !(env.mdDir = []) then pathJoin env.mdDir src
  else if isAbsPath src then src
  else []

/-- `_add_image_to_paragraph`: classify the locator and append the runs the
method adds to the paragraph. A remote locator gets a placeholder without
any fetch; a local locator is resolved (file URL via Qt, relative against
the source directory, absolute as is) and either embedded, replaced by a
load-error placeholder after an embedding failure (the empty run created
before `add_picture` raised stays in the paragraph), or replaced by a
not-found placeholder. -/
def addImageRuns (env : Env) (src alt : List Char) : List Run :=
  if "http://".toList.isPrefixOf src || "https://".toList.isPrefixOf src then
    [webImagePlaceholder src alt]
  else
    if !(imgLocalPath env src = []) && env.fsExists (imgLocalPath env src) then
      if env.addPictureOk (imgLocalPath env src) then [plainRun .pictureRun []]
      else [plainRun .pictureRun [],
        loadErrorPlaceholder (imgLocalPath env src) alt]
    else [notFoundPlaceholder src alt]

/-- The base font size value `_add_inline_content_to_paragraph` extracts
from the enclosing block's style: parent.get('font_size', 12). -/
def baseSizeVal (parent : Entry) : Value :=
  (alookup parent "font_size").getD (.int 12)

/-- The 'inline_code' style entry: styles_config.get('inline_code', dict()). -/
def inlineCodeCfg (env : Env) : Entry :=
  (alookup env.styles "inline_code").getD []

mutual

/-- `content_element.get_text()` on one node: concatenation of every
descendant string. -/
def getTextNode : Node → List Char
  | .text s => s
  | .elem _ _ cs => getTextList cs

/-- `get_text()` over a child list. -/
def getTextList : List Node → List Char
  | [] => []
  | c :: cs => getTextNode c ++ getTextList cs

end

mutual

/-- `_add_inline_content_to_paragraph` on one node: the runs appended to the
paragraph. A string is kept when its stripped form is nonempty or it is a
single space; strong/b and em/i recurse on a copy of the inherited style
with 'bold' / 'italic' set to True; code uses the 'inline_code' entry with
the paragraph's base size; img defers to image handling; a flattens to its
visible text under the inherited style; br appends an unstyled run carrying
a break; any other tag recurses over its children with the inherited
style. -/
def addInlineNode (env : Env) (parent : Entry) : Node → List Run
  | .text s =>
    if !(pyStrip s = []) || s = [' '] then
      [applyFontStyle .textRun s parent (some (baseSizeVal parent))]
    else []
  | .elem tag attrs cs =>
    if tag = "strong" || tag = "b" then
      addInlineList env (aset parent "bold" (.bool true)) cs
    else if tag = "em" || tag = "i" then
      addInlineList env (aset parent "italic" (.bool true)) cs
    else if tag = "code" then
      let codeText := getTextList cs
      if !(codeText = []) then
        [applyFontStyle .codeRun codeText (inlineCodeCfg env)
          (some (baseSizeVal parent))]
      else []
    else if tag = "img" then
      addImageRuns env ((alookup attrs "src").getD []) ((alookup attrs "alt").getD [])
    else if tag = "a" then
      [applyFontStyle .linkRun (getTextList cs) parent (some (baseSizeVal parent))]
    else if tag = "br" then
      [plainRun .lineBreak []]
    else
      addInlineList env parent cs

/-- Inline processing of a list of sibling nodes, in order. -/
def addInlineList (env : Env) (parent : Entry) : List Node → List Run
  | [] => []
  | c :: cs => addInlineNode env parent c ++ addInlineList env parent cs

end

/-- Nest a node under a chain of single-child wrapper tags, innermost
last. -/
def wrapChain (names : List String) (t : Node) : Node :=
  names.foldr (fun n acc => Node.elem n [] [acc]) t

/-- Tag names whose inline branch recurses into the children with an
(possibly overlaid) inherited style: the emphasis tags and every tag the
dispatcher does not treat specially. -/
def recursingInlineTag (n : String) : Bool :=
  n = "strong" || n = "b" || n = "em" || n = "i" ||
    !(n = "code" || n = "img" || n = "a" || n = "br")

/-! List items (`_process_list` and `_process_list_item_content`). -/

/-- The attributes of a list item's bullet paragraph that the converter sets
explicitly: the Word style name ('ListBullet' or 'ListNumber') and the two
indents of the hanging layout. -/
structure BulletFmt where
  styleName : String
  leftIndentCm : ℚ
  firstLineIndentCm : ℚ
deriving DecidableEq

/-- The Word list style chosen for an item of a 'ul' or 'ol' list. -/
def listStyleName (listTypeTag : String) : String :=
  if listTypeTag = "ul" then "ListBullet" else "ListNumber"

/-- The bullet paragraph created for a list item at a nesting level. -/
def bulletFmt (listTypeTag : String) (level : Nat) : BulletFmt :=
  ⟨listStyleName listTypeTag, liLeftIndentCm level, liFirstLineIndentCm⟩

/-- A block appended to the document while processing one list item: either
the item's own bullet paragraph (with its accumulated inline runs), or a
block emitted by the recursive `_process_html_element` call on a block-level
child, abstracted by the type parameter. -/
inductive LiBlock (β : Type) where
  | listPara (fmt : BulletFmt) (runs : List Run)
  | nested (b : β)
deriving DecidableEq

/-- Modify the element at one position of a list, leaving the rest
unchanged. -/
def modifyAt {α : Type} : Nat → (α → α) → List α → List α
  | _, _, [] => []
  | 0, f, x :: xs => f x :: xs
  | n + 1, f, x :: xs => x :: modifyAt n f xs

/-- Append runs to a bullet paragraph block; other blocks are unchanged. -/
def appendToPara {β : Type} (rs : List Run) : LiBlock β → LiBlock β
  | .listPara fmt rs0 => .listPara fmt (rs0 ++ rs)
  | b => b

/-- The loop state of `_process_list_item_content`: the blocks this call has
appended to the document so far, the position of `first_para_in_item` among
them when it has been created, and the `current_block_is_first_in_li`
flag. -/
structure LiState (β : Type) where
  doc : List (LiBlock β)
  firstIdx : Option Nat
  flagFirst : Bool

/-- Create the bullet paragraph (empty, with the list style and the hanging
indents) when `first_para_in_item` is still None. -/
def ensureBullet {β : Type} (fmt : BulletFmt) (st : LiState β) : LiState β :=
  match st.firstIdx with
  | some _ => st
  | none => ⟨st.doc ++ [.listPara fmt []], some st.doc.length, st.flagFirst⟩

/-- `_add_inline_content_to_paragraph(first_para_in_item, ...)`: append the
produced runs to the bullet paragraph. -/
def appendRunsToBullet {β : Type} (rs : List Run) (st : LiState β) : LiState β :=
  match st.firstIdx with
  | some i => ⟨modifyAt i (appendToPara rs) st.doc, st.firstIdx, st.flagFirst⟩
  | none => st

/-- The inline tag names handled inside a list item without leaving the
bullet paragraph. -/
def liInlineTags : List String := ["strong", "b", "em", "i", "code", "a", "img", "br"]

/-- One iteration of the child loop of `_process_list_item_content`: a
non-whitespace string or an inline tag ensures the bullet paragraph exists
and appends its runs there; any other tag is a block-level child, for which
the bullet paragraph is created only when nothing has been processed yet,
and whose recursive output (at list_level + 1) is appended to the
document. -/
def liStep {β : Type} (env : Env) (pb : Node → Nat → List β) (level : Nat)
    (fmt : BulletFmt) (paraCfg : Entry) (st : LiState β) (child : Node) :
    LiState β :=
  match child with
  | .text s =>
    if !(pyStrip s = []) then
      let st2 := appendRunsToBullet (addInlineNode env paraCfg (.text s))
        (ensureBullet fmt st)
      ⟨st2.doc, st2.firstIdx, false⟩
    else st
  | .elem tag attrs cs =>
    if tag ∈ liInlineTags then
      let st2 := appendRunsToBullet
        (addInlineNode env paraCfg (.elem tag attrs cs)) (ensureBullet fmt st)
      ⟨st2.doc, st2.firstIdx, false⟩
    else
      let st1 := if st.flagFirst then ensureBullet fmt st else st
      ⟨st1.doc ++ (pb (.elem tag attrs cs) (level + 1)).map .nested,
        st1.firstIdx, false⟩

/-- The paragraph style entry:
styles_config.get('paragraph', DEFAULT_STYLES_CONFIG['paragraph']). -/
def paragraphCfg (s : Sheet) : Entry :=
  (alookup s "paragraph").getD defaultParagraph

/-- `_process_list_item_content` down to its final state: fold the child
loop from the empty state, then create the bullet paragraph at the end if
the item produced nothing (an empty or whitespace-only item). -/
def processListItemStates {β : Type} (env : Env) (pb : Node → Nat → List β)
    (contents : List Node) (level : Nat) (listTypeTag : String) : LiState β :=
  let fmt := bulletFmt listTypeTag level
  ensureBullet fmt
    (contents.foldl (liStep env pb level fmt (paragraphCfg env.styles))
      ⟨[], none, true⟩)

/-- The blocks `_process_list_item_content` appends to the document for one
list item. -/
def processListItemContent {β : Type} (env : Env) (pb : Node → Nat → List β)
    (contents : List Node) (level : Nat) (listTypeTag : String) :
    List (LiBlock β) :=
  (processListItemStates env pb contents level listTypeTag).doc

/-- The item's bullet paragraph (`first_para_in_item` at the end of the
method). -/
def bulletParaOf {β : Type} (env : Env) (pb : Node → Nat → List β)
    (contents : List Node) (level : Nat) (listTypeTag : String) :
    Option (LiBlock β) :=
  let st := processListItemStates env pb contents level listTypeTag
  st.firstIdx.bind (fun i => st.doc.get? i)

/-! Tables (the 'table' branch of `_process_html_element`). -/

/-- One parsed HTML table cell: whether it is a th, and its text content. -/
structure HtmlCell where
  isTh : Bool
  text : List Char
deriving DecidableEq

/-- One cell of the produced Word table: its text and the header styling
applied to it (a bold run, centered paragraph). -/
structure WordCell where
  text : List Char
  bold : Bool
  centered : Bool
deriving DecidableEq

/-- A Word table cell nobody wrote to. -/
def emptyWordCell : WordCell := ⟨[], false, false⟩

/-- Populate one Word table row of num_cols cells from a list of cell texts:
the loop writes cell i for i < num_cols, so extra texts are ignored and
missing trailing cells stay empty. -/
def fillRow (numCols : Nat) (texts : List (List Char)) (hdr : Bool) :
    List WordCell :=
  (List.range numCols).map (fun i =>
    match texts.get? i with
    | some t => ⟨t, hdr, hdr⟩
    | none => emptyWordCell)

/-- The 'table' branch of `_process_html_element`: no rows or an empty first
row emits nothing; the column count is the first row's cell count; when any
first-row cell is a th, the first Word row is built (bold, centered) from
the first row's th cells, otherwise from all its cells unstyled; every
remaining row contributes one Word row built from its td cells. Cell texts
are stripped. The Bool of the result records whether a header row was
produced. -/
def processTable (rows : List (List HtmlCell)) :
    Option (Bool × List (List WordCell)) :=
  match rows with
  | [] => none
  | r0 :: rest =>
    if r0.length = 0 then none
    else
      let numCols := r0.length
      let isHeader := r0.any (fun c => c.isTh)
      let firstRow :=
        if isHeader then
          fillRow numCols ((r0.filter (fun c => c.isTh)).map (fun c => pyStrip c.text)) true
        else
          fillRow numCols (r0.map (fun c => pyStrip c.text)) false
      some (isHeader,
        firstRow :: rest.map (fun r =>
          fillRow numCols ((r.filter (fun c => !c.isTh)).map (fun c => pyStrip c.text)) false))

/-! Theorems. First the code-block line structure (claim C2). -/

theorem splitLines_ne_nil (cs : List Char) : splitLines cs ≠ [] := by
  induction cs with
  | nil => simp [splitLines]
  | cons c cs ih =>
    cases h : splitLines cs with
    | nil => exact absurd h ih
    | cons l ls =>
      simp only [splitLines, h]
      by_cases hc : c = '\n' <;> simp [hc]

theorem splitLines_no_newline (l : List Char) (h : '\n' ∉ l) :
    splitLines l = [l] := by
  induction l with
  | nil => rfl
  | cons c cs ih =>
    have hc : ¬(c = '\n') := fun e => h (by simp [e])
    have hcs : '\n' ∉ cs := fun m => h (List.mem_cons_of_mem _ m)
    simp only [splitLines, ih hcs]
    simp [hc]

theorem splitLines_append_cons (l rest : List Char) (h : '\n' ∉ l) :
    splitLines (l ++ '\n' :: rest) = l :: splitLines rest := by
  induction l with
  | nil =>
    cases hr : splitLines rest with
    | nil => exact absurd hr (splitLines_ne_nil rest)
    | cons l2 ls2 => simp [splitLines, hr]
  | cons c cs ih =>
    have hc : ¬(c = '\n') := fun e => h (by simp [e])
    have hcs : '\n' ∉ cs := fun m => h (List.mem_cons_of_mem _ m)
    simp only [List.cons_append, splitLines, List.append_eq]
    rw [ih hcs]
    simp [hc]

theorem splitLines_concat_newline (xs : List Char) :
    splitLines (xs ++ ['\n']) = splitLines xs ++ [[]] := by
  induction xs with
  | nil => rfl
  | cons c cs ih =>
    cases h : splitLines cs with
    | nil => exact absurd h (splitLines_ne_nil cs)
    | cons l ls =>
      rw [h] at ih
      simp only [List.cons_append, splitLines, List.append_eq]
      rw [ih, h]
      by_cases hc : c = '\n' <;> simp [hc]

theorem split_join (L : List (List Char)) (hne : L ≠ [])
    (hnl : ∀ l ∈ L, '\n' ∉ l) : splitLines (joinLines L) = L := by
  induction L with
  | nil => exact absurd rfl hne
  | cons l ls ih =>
    cases ls with
    | nil => simpa [joinLines] using splitLines_no_newline l (hnl l (by simp))
    | cons l2 ls2 =>
      have hj : joinLines (l :: l2 :: ls2) = l ++ '\n' :: joinLines (l2 :: ls2) := rfl
      rw [hj, splitLines_append_cons _ _ (hnl l (by simp)),
        ih (by simp) (fun x hx => hnl x (by simp [hx]))]

theorem emitCodeLines_map_fst (L : List (List Char)) :
    (emitCodeLines L).map Prod.fst = L := by
  induction L with
  | nil => rfl
  | cons l ls ih =>
    cases ls with
    | nil => rfl
    | cons l2 ls2 =>
      show ((l, true) :: emitCodeLines (l2 :: ls2)).map Prod.fst = _
      simp only [List.map_cons, ih]

/-- Claim C2 counterexample: for the code text consisting of one line "a"
followed by a final newline, the emitted code block has two runs, the
second the empty trailing line (preceded by a break), not the single line
the claim asserts: the trailing empty line created by the final newline is
kept, not dropped. -/
theorem c2_trailing_newline_counterexample :
    emitCodeBlock ('a' :: '\n' :: []) = [(['a'], true), ([], false)] ∧
    ¬(((emitCodeBlock ('a' :: '\n' :: [])).map Prod.fst).length = 1) := by
  decide

/-- Claim C2 (amended): for every preformatted code block whose text is a
sequence of lines, the emitted code block contains exactly those lines as
literal runs in the same order, with every interior empty line preserved;
and when the code text ends in a final newline the block keeps an
additional trailing empty line (an empty final run after a break) rather
than dropping it: input lines a, blank, b yield exactly those three lines
with the blank kept, and a text of one line plus a final newline yields
that line followed by one empty line. -/
theorem c2_code_block_lines (L : List (List Char)) (hne : L ≠ [])
    (hnl : ∀ l ∈ L, '\n' ∉ l) :
    (emitCodeBlock (joinLines L)).map Prod.fst = L ∧
    (emitCodeBlock (joinLines L ++ ['\n'])).map Prod.fst = L ++ [[]] := by
  constructor
  · rw [emitCodeBlock, emitCodeLines_map_fst, split_join L hne hnl]
  · rw [emitCodeBlock, emitCodeLines_map_fst, splitLines_concat_newline,
      split_join L hne hnl]

/-- Witness for c2_code_block_lines at the spec's example: the three lines
a, blank, b, and the trailing-newline variant. -/
theorem c2_code_block_lines_witness :
    (([['a'], [], ['b']] : List (List Char)) ≠ [] ∧
      ∀ l ∈ ([['a'], [], ['b']] : List (List Char)), '\n' ∉ l) ∧
    (emitCodeBlock (joinLines [['a'], [], ['b']])).map Prod.fst = [['a'], [], ['b']] ∧
    (emitCodeBlock (joinLines [['a'], [], ['b']] ++ ['\n'])).map Prod.fst =
      [['a'], [], ['b']] ++ [[]] :=
  ⟨by decide,
    (c2_code_block_lines [['a'], [], ['b']] (by decide) (by decide)).1,
    (c2_code_block_lines [['a'], [], ['b']] (by decide) (by decide)).2⟩

/-- Claim C9: the preview does convert points to pixels at exactly 4/3 and
centimeters to pixels at 37.7952 (within 0.01 of 37.8), but the preview's
per-depth list indentation step (a fixed 20px padding for each nested list,
40px for a top-level list) does not equal the document emitter's per-depth
indent step of 1.27 cm (which is about 48px under the preview's own
cm-to-pixel factor): the two renderers use different list indentation
constants. -/
theorem c9_preview_list_indent_divergence :
    previewPtToPx 1 = 4 / 3 ∧
    previewPtToPx 12 = 16 ∧
    previewCmToPx 1 - 378 / 10 < 1 / 100 ∧
    378 / 10 - previewCmToPx 1 < 1 / 100 ∧
    liLeftIndentCm 1 - liLeftIndentCm 0 = 127 / 100 ∧
    ¬(previewCmToPx (liLeftIndentCm 1 - liLeftIndentCm 0) =
        previewNestedListPaddingPx) ∧
    ¬(previewCmToPx (liLeftIndentCm 1 - liLeftIndentCm 0) =
        previewListPaddingPx) := by
  refine ⟨?_, ?_, ?_, ?_, ?_, ?_, ?_⟩ <;>
    norm_num [previewPtToPx, previewCmToPx, liLeftIndentCm,
      previewNestedListPaddingPx, previewListPaddingPx]

/-! Association-list lemmas used by the style sheet round trip (claims C1
and C10). -/

theorem alookup_nil {α : Type} (k : String) :
    alookup ([] : List (String × α)) k = none := rfl

theorem alookup_cons {α : Type} (k0 : String) (v0 : α)
    (rest : List (String × α)) (k : String) :
    alookup ((k0, v0) :: rest) k =
      if k0 = k then some v0 else alookup rest k := rfl

theorem alookup_value_map {α : Type} (l : List (String × α)) (g : α → α)
    (k : String) :
    alookup (l.map (fun p => (p.1, g p.2))) k = (alookup l k).map g := by
  induction l with
  | nil => rfl
  | cons p rest ih =>
    obtain ⟨k0, v0⟩ := p
    simp only [List.map_cons, alookup_cons]
    by_cases h : k0 = k
    · rw [if_pos h, if_pos h]
      rfl
    · rw [if_neg h, if_neg h, ih]

theorem alookup_mapAtKey {α : Type} (l : List (String × α)) (key : String)
    (g : α → α) (k : String) :
    alookup (mapAtKey key g l) k =
      if k = key then (alookup l k).map g else alookup l k := by
  induction l with
  | nil =>
    simp only [mapAtKey, List.map_nil, alookup_nil]
    cases h : decide (k = key) <;> simp
  | cons p rest ih =>
    obtain ⟨k0, v0⟩ := p
    simp only [mapAtKey, List.map_cons] at ih ⊢
    by_cases hpk : k0 = key
    · subst hpk
      rw [if_pos rfl]
      simp only [alookup_cons]
      by_cases hk : k0 = k
      · subst hk
        rw [if_pos rfl, if_pos rfl, if_pos rfl]
        rfl
      · have hkk : ¬(k = k0) := fun e => hk e.symm
        rw [if_neg hk, if_neg hk, ih, if_neg hkk]
    · rw [if_neg hpk]
      simp only [alookup_cons]
      by_cases hk : k0 = k
      · subst hk
        have hkk : ¬(k0 = key) := hpk
        rw [if_pos rfl, if_pos rfl, if_neg hkk]
      · rw [if_neg hk, if_neg hk, ih]

theorem alookup_mem {α : Type} (l : List (String × α)) (k : String) (v : α)
    (h : alookup l k = some v) : (k, v) ∈ l := by
  induction l with
  | nil => simp [alookup] at h
  | cons p rest ih =>
    obtain ⟨k0, v0⟩ := p
    rw [alookup_cons] at h
    by_cases hk : k0 = k
    · rw [if_pos hk] at h
      cases h
      subst hk
      exact List.mem_cons_self _ _
    · rw [if_neg hk] at h
      exact List.mem_cons_of_mem _ (ih h)

theorem ahasKey_eq_isSome {α : Type} (l : List (String × α)) (k : String) :
    ahasKey l k = (alookup l k).isSome := by
  induction l with
  | nil => rfl
  | cons p rest ih =>
    obtain ⟨k0, v0⟩ := p
    rw [alookup_cons]
    by_cases hk : k0 = k
    · simp [ahasKey, List.any_cons, hk]
    · simp only [if_neg hk]
      simpa [ahasKey, List.any_cons, hk] using ih

theorem alookup_eq_none_of_not_hasKey {α : Type} (l : List (String × α))
    (k : String) (h : ahasKey l k = false) : alookup l k = none := by
  have hs := ahasKey_eq_isSome l k
  rw [h] at hs
  cases hl : alookup l k
  · rfl
  · rw [hl] at hs
    simp at hs

theorem alookup_isSome_of_hasKey {α : Type} (l : List (String × α))
    (k : String) (h : ahasKey l k = true) : ∃ v, alookup l k = some v := by
  have hs := ahasKey_eq_isSome l k
  rw [h] at hs
  cases hl : alookup l k
  · rw [hl] at hs
    simp at hs
  · exact ⟨_, rfl⟩

theorem alookup_append {α : Type} (l1 l2 : List (String × α)) (k : String) :
    alookup (l1 ++ l2) k =
      match alookup l1 k with
      | some v => some v
      | none => alookup l2 k := by
  induction l1 with
  | nil => simp [alookup_nil]
  | cons p rest ih =>
    obtain ⟨k0, v0⟩ := p
    rw [List.cons_append, alookup_cons, alookup_cons]
    by_cases hk : k0 = k
    · rw [if_pos hk, if_pos hk]
    · rw [if_neg hk, if_neg hk, ih]

theorem alookup_aset {α : Type} (l : List (String × α)) (key : String)
    (v : α) (k : String) :
    alookup (aset l key v) k = if k = key then some v else alookup l k := by
  unfold aset
  cases hh : ahasKey l key
  · simp only [Bool.false_eq_true, if_false]
    rw [alookup_append]
    by_cases hk : k = key
    · subst hk
      rw [alookup_eq_none_of_not_hasKey l k hh]
      simp [alookup_cons]
    · have hkk : ¬(key = k) := fun e => hk e.symm
      rw [if_neg hk]
      cases hl : alookup l k <;> simp [alookup_cons, alookup_nil, hkk, hl]
  · simp only [if_true]
    rw [alookup_mapAtKey]
    by_cases hk : k = key
    · subst hk
      obtain ⟨w, hw⟩ := alookup_isSome_of_hasKey l k hh
      rw [if_pos rfl, if_pos rfl, hw]
      rfl
    · rw [if_neg hk, if_neg hk]

theorem alookup_dictUpdate (b u : Entry) (k : String)
    (hnd : (u.map Prod.fst).Nodup) :
    alookup (dictUpdate b u) k =
      match alookup u k with
      | some v => some v
      | none => alookup b k := by
  induction u generalizing b with
  | nil => simp [dictUpdate, alookup_nil]
  | cons p rest ih =>
    have hnd2 : (rest.map Prod.fst).Nodup := (List.nodup_cons.mp (by simpa using hnd)).2
    have hnm : p.1 ∉ rest.map Prod.fst := (List.nodup_cons.mp (by simpa using hnd)).1
    obtain ⟨n, d⟩ := p
    show alookup (dictUpdate (aset b n d) rest) k = _
    rw [ih _ hnd2, alookup_cons]
    by_cases hk : n = k
    · subst hk
      have hrest : alookup rest n = none := by
        apply alookup_eq_none_of_not_hasKey
        cases hh : ahasKey rest n
        · rfl
        · exfalso
          obtain ⟨w, hw⟩ := alookup_isSome_of_hasKey rest n hh
          exact hnm (List.mem_map.mpr ⟨_, alookup_mem rest n _ hw, rfl⟩)
      rw [hrest, alookup_aset, if_pos rfl, if_pos rfl]
    · have hkk : ¬(k = n) := fun e => hk e.symm
      rw [alookup_aset, if_neg hkk, if_neg hk]

theorem alookup_mergeStep (base : Sheet) (n : String) (d : Entry)
    (k : String) :
    alookup (mergeStep base (n, d)) k =
      if k = n then
        match alookup base n with
        | some bv => some (dictUpdate bv d)
        | none => some d
      else alookup base k := by
  unfold mergeStep
  cases hh : ahasKey base n
  · simp only [Bool.false_eq_true, if_false]
    rw [alookup_append, alookup_eq_none_of_not_hasKey base n hh]
    by_cases hk : k = n
    · subst hk
      rw [alookup_eq_none_of_not_hasKey base k hh, if_pos rfl]
      simp [alookup_cons]
    · have hkk : ¬(n = k) := fun e => hk e.symm
      rw [if_neg hk]
      cases hl : alookup base k <;> simp [alookup_cons, alookup_nil, hkk, hl]
  · simp only [if_true]
    rw [alookup_mapAtKey]
    by_cases hk : k = n
    · subst hk
      obtain ⟨w, hw⟩ := alookup_isSome_of_hasKey base k hh
      rw [if_pos rfl, if_pos rfl, hw]
      rfl
    · rw [if_neg hk, if_neg hk]

theorem alookup_mergeFold (loaded : Sheet) (base : Sheet) (k : String)
    (hnd : (loaded.map Prod.fst).Nodup) :
    alookup (loaded.foldl mergeStep base) k =
      match alookup loaded k, alookup base k with
      | some d, some bv => some (dictUpdate bv d)
      | some d, none => some d
      | none, o => o := by
  induction loaded generalizing base with
  | nil => cases h : alookup base k <;> simp [alookup_nil, h]
  | cons p rest ih =>
    have hnd2 : (rest.map Prod.fst).Nodup := (List.nodup_cons.mp (by simpa using hnd)).2
    have hnm : p.1 ∉ rest.map Prod.fst := (List.nodup_cons.mp (by simpa using hnd)).1
    obtain ⟨n, d⟩ := p
    show alookup (rest.foldl mergeStep (mergeStep base (n, d))) k = _
    rw [ih _ hnd2, alookup_cons]
    by_cases hk : n = k
    · subst hk
      have hrest : alookup rest n = none := by
        apply alookup_eq_none_of_not_hasKey
        cases hh : ahasKey rest n
        · rfl
        · exfalso
          obtain ⟨w, hw⟩ := alookup_isSome_of_hasKey rest n hh
          exact hnm (List.mem_map.mpr ⟨_, alookup_mem rest n _ hw, rfl⟩)
      rw [hrest, alookup_mergeStep, if_pos rfl, if_pos rfl]
      cases hb : alookup base n <;> rfl
    · have hkk : ¬(k = n) := fun e => hk e.symm
      rw [alookup_mergeStep, if_neg hkk, if_neg hk]

theorem jsonValue_of_not_tup (v : Value) (h : v.isTup = false) :
    jsonValue v = v := by
  cases v <;> first | rfl | simp [Value.isTup] at h

theorem tuplify_jsonValue_listify (r g b : Nat) :
    tuplifyColor (tuplifyColor (jsonValue (listifyColor (.rgbTuple r g b)))) =
      .rgbTuple r g b := rfl

theorem default_entries_have_color :
    ∀ p ∈ DEFAULT_STYLES_CONFIG, ahasKey p.2 "color_rgb" = true := by decide

theorem map_fst_value_map {α : Type} (l : List (String × α)) (g : α → α) :
    (l.map (fun p => (p.1, g p.2))).map Prod.fst = l.map Prod.fst := by
  induction l with
  | nil => rfl
  | cons p rest ih => simp [ih]

theorem map_fst_mapAtKey {α : Type} (l : List (String × α)) (key : String)
    (g : α → α) :
    (mapAtKey key g l).map Prod.fst = l.map Prod.fst := by
  induction l with
  | nil => rfl
  | cons p rest ih =>
    simp only [mapAtKey, List.map_cons] at ih ⊢
    by_cases h : p.1 = key <;> simp [h, ih]

/-- Claim C1: for every fully-resolved style sheet S (no duplicate keys;
every default style key present with an entry carrying all fields of the
built-in default entry for that key; every 'color_rgb' an 8-bit tuple
triple; tuples used only for colors, as in every configuration this program
builds), saving with save_styles and loading the written file back with
load_styles restores exactly S under Python dict equality, field for field,
every color coming back as the identical ordered tuple of channel values. -/
theorem c1_save_load_round_trip (S : Sheet)
    (hndS : (S.map Prod.fst).Nodup)
    (hnde : ∀ p ∈ S, ((p.2 : Entry).map Prod.fst).Nodup)
    (hcov : defaultsCovered S = true)
    (hcol : colorsTuple8 S = true)
    (hstray : noStrayTuples S = true) :
    sheetEqv (saveThenLoad S) S := by
  intro k
  have hT : alookup (jsonSheet (saveStylesSerial S)) k =
      (alookup S k).map
        (fun e => jsonEntry (mapAtKey "color_rgb" listifyColor e)) := by
    unfold jsonSheet saveStylesSerial
    rw [alookup_value_map, alookup_value_map, Option.map_map]
    rfl
  have hndT : ((jsonSheet (saveStylesSerial S)).map Prod.fst).Nodup := by
    unfold jsonSheet saveStylesSerial
    rw [map_fst_value_map, map_fst_value_map]
    exact hndS
  have hfin : alookup (saveThenLoad S) k =
      ((alookup (mergeLoaded (jsonSheet (saveStylesSerial S))) k).map
        ensureEntry).map ensureEntry := by
    unfold saveThenLoad loadStylesFromJson ensureRgbTuples
    rw [alookup_value_map, alookup_value_map]
  have hmg := alookup_mergeFold (jsonSheet (saveStylesSerial S))
    DEFAULT_STYLES_CONFIG k hndT
  cases hS : alookup S k with
  | none =>
    have hTk : alookup (jsonSheet (saveStylesSerial S)) k = none := by
      rw [hT, hS]; rfl
    have hDk : alookup DEFAULT_STYLES_CONFIG k = none := by
      cases hd : alookup DEFAULT_STYLES_CONFIG k with
      | none => rfl
      | some d =>
        exfalso
        have hmem := alookup_mem _ _ _ hd
        have hc := (List.all_eq_true.mp hcov) (k, d) hmem
        rw [hS] at hc
        simp at hc
    have : alookup (saveThenLoad S) k = none := by
      rw [hfin]
      show ((alookup (mergeLoaded _) k).map ensureEntry).map ensureEntry = none
      rw [show mergeLoaded (jsonSheet (saveStylesSerial S)) =
        (jsonSheet (saveStylesSerial S)).foldl mergeStep DEFAULT_STYLES_CONFIG
        from rfl] at *
      rw [hmg, hTk, hDk]
      rfl
    rw [this]
    trivial
  | some e =>
    have hmemS : (k, e) ∈ S := alookup_mem _ _ _ hS
    have hcolE := (List.all_eq_true.mp hcol) (k, e) hmemS
    have hstrayE := (List.all_eq_true.mp hstray) (k, e) hmemS
    have hndeE : (e.map Prod.fst).Nodup := hnde (k, e) hmemS
    set u := jsonEntry (mapAtKey "color_rgb" listifyColor e) with hu_def
    have hTk : alookup (jsonSheet (saveStylesSerial S)) k = some u := by
      rw [hT, hS]; rfl
    have hndu : (u.map Prod.fst).Nodup := by
      rw [hu_def]
      unfold jsonEntry
      rw [map_fst_value_map, map_fst_mapAtKey]
      exact hndeE
    have hulook : ∀ f, alookup u f =
        if f = "color_rgb" then
          (alookup e f).map (fun v => jsonValue (listifyColor v))
        else (alookup e f).map jsonValue := by
      intro f
      rw [hu_def]
      unfold jsonEntry
      rw [alookup_value_map, alookup_mapAtKey]
      by_cases hf : f = "color_rgb"
      · rw [if_pos hf, if_pos hf, Option.map_map]
        rfl
      · rw [if_neg hf, if_neg hf]
    have hstrayVal : ∀ f v, ¬(f = "color_rgb") → alookup e f = some v →
        jsonValue v = v := by
      intro f v hf hv
      have hm := alookup_mem _ _ _ hv
      have hval := (List.all_eq_true.mp hstrayE) (f, v) hm
      have hval2 : f = "color_rgb" ∨ v.isTup = false := by
        simpa using hval
      rcases hval2 with h1 | h2
      · exact absurd h1 hf
      · exact jsonValue_of_not_tup v h2
    cases hd : alookup DEFAULT_STYLES_CONFIG k with
    | some d =>
      have hmemD := alookup_mem _ _ _ hd
      have hcovE := (List.all_eq_true.mp hcov) (k, d) hmemD
      rw [hS] at hcovE
      have hcovE2 : ∀ (a : String) (b : Value), (a, b) ∈ d →
          ahasKey e a = true := by
        simpa using hcovE
      have hmrg : alookup (mergeLoaded (jsonSheet (saveStylesSerial S))) k =
          some (dictUpdate d u) := by
        rw [show mergeLoaded (jsonSheet (saveStylesSerial S)) =
          (jsonSheet (saveStylesSerial S)).foldl mergeStep DEFAULT_STYLES_CONFIG
          from rfl, hmg, hTk, hd]
      have hE : alookup (saveThenLoad S) k =
          some (ensureEntry (ensureEntry (dictUpdate d u))) := by
        rw [hfin, hmrg]; rfl
      rw [hE]
      show entryEqv (ensureEntry (ensureEntry (dictUpdate d u))) e
      intro f
      have hdu := alookup_dictUpdate d u f hndu
      have hens : ∀ (x : Entry) f0, alookup (ensureEntry x) f0 =
          if f0 = "color_rgb" then (alookup x f0).map tuplifyColor
          else alookup x f0 := by
        intro x f0
        unfold ensureEntry
        exact alookup_mapAtKey x "color_rgb" tuplifyColor f0
      by_cases hf : f = "color_rgb"
      · subst hf
        have hdcol := default_entries_have_color (k, d) hmemD
        obtain ⟨w, hw⟩ := alookup_isSome_of_hasKey d _ hdcol
        have hecol : ahasKey e "color_rgb" = true :=
          hcovE2 "color_rgb" w (alookup_mem _ _ _ hw)
        obtain ⟨v, hv⟩ := alookup_isSome_of_hasKey e _ hecol
        rw [hv] at hcolE
        have hvt : ∃ r g b, v = Value.rgbTuple r g b := by
          cases v <;> simp_all
        obtain ⟨r, g, b, rfl⟩ := hvt
        have huc : alookup u "color_rgb" = some (.rgbList r g b) := by
          rw [hulook, if_pos rfl, hv]
          rfl
        rw [hens, hens, if_pos rfl, if_pos rfl, hdu, huc, hv]
        rfl
      · rw [hens, hens, if_neg hf, if_neg hf, hdu, hulook, if_neg hf]
        cases he : alookup e f with
        | some v =>
          simp only [Option.map_some']
          rw [hstrayVal f v hf he]
        | none =>
          show alookup d f = none
          cases hdf : alookup d f with
          | none => rfl
          | some w =>
            exfalso
            have := hcovE2 f w (alookup_mem _ _ _ hdf)
            obtain ⟨v2, hv2⟩ := alookup_isSome_of_hasKey e _ this
            rw [he] at hv2
            cases hv2
    | none =>
      have hmrg : alookup (mergeLoaded (jsonSheet (saveStylesSerial S))) k =
          some u := by
        rw [show mergeLoaded (jsonSheet (saveStylesSerial S)) =
          (jsonSheet (saveStylesSerial S)).foldl mergeStep DEFAULT_STYLES_CONFIG
          from rfl, hmg, hTk, hd]
      have hE : alookup (saveThenLoad S) k =
          some (ensureEntry (ensureEntry u)) := by
        rw [hfin, hmrg]; rfl
      rw [hE]
      show entryEqv (ensureEntry (ensureEntry u)) e
      intro f
      have hens : ∀ (x : Entry) f0, alookup (ensureEntry x) f0 =
          if f0 = "color_rgb" then (alookup x f0).map tuplifyColor
          else alookup x f0 := by
        intro x f0
        unfold ensureEntry
        exact alookup_mapAtKey x "color_rgb" tuplifyColor f0
      by_cases hf : f = "color_rgb"
      · subst hf
        rw [hens, hens, if_pos rfl, if_pos rfl, hulook, if_pos rfl]
        cases hv : alookup e "color_rgb" with
        | none => rfl
        | some v =>
          rw [hv] at hcolE
          have hvt : ∃ r g b, v = Value.rgbTuple r g b := by
            cases v <;> simp_all
          obtain ⟨r, g, b, rfl⟩ := hvt
          rfl
      · rw [hens, hens, if_neg hf, if_neg hf, hulook, if_neg hf]
        cases he : alookup e f with
        | some v =>
          simp only [Option.map_some']
          rw [hstrayVal f v hf he]
        | none => rfl

/-- Witness for c1_save_load_round_trip: the built-in default configuration
satisfies every hypothesis and round-trips. -/
theorem c1_save_load_round_trip_witness :
    (defaultsCovered DEFAULT_STYLES_CONFIG = true ∧
      colorsTuple8 DEFAULT_STYLES_CONFIG = true ∧
      noStrayTuples DEFAULT_STYLES_CONFIG = true) ∧
    sheetEqv (saveThenLoad DEFAULT_STYLES_CONFIG) DEFAULT_STYLES_CONFIG :=
  ⟨⟨by decide, by decide, by decide⟩,
    c1_save_load_round_trip DEFAULT_STYLES_CONFIG (by decide) (by decide)
      (by decide) (by decide) (by decide)⟩

/-! Lemmas for the color-tuple invariant (claim C10). -/

theorem tuplify_not_lst (v : Value) : (tuplifyColor v).isLst = false := by
  cases v <;> rfl

theorem tuplify_tup_of_ok (v : Value)
    (h : v.isLst = true ∨ v.isTup = true) :
    (tuplifyColor v).isTup = true := by
  cases v <;> simp [Value.isLst, Value.isTup, tuplifyColor] at h ⊢

theorem alookup_ensureEntry (e : Entry) (f : String) :
    alookup (ensureEntry e) f =
      if f = "color_rgb" then (alookup e f).map tuplifyColor
      else alookup e f :=
  alookup_mapAtKey e _ _ f

theorem noListColors_ensure (s : Sheet) :
    noListColors (ensureRgbTuples s) = true := by
  unfold noListColors ensureRgbTuples
  rw [List.all_eq_true]
  intro p hp
  obtain ⟨q, hq, rfl⟩ := List.mem_map.mp hp
  show (match alookup (ensureEntry q.2) "color_rgb" with
    | some v => !(v.isLst)
    | none => true) = true
  rw [alookup_ensureEntry, if_pos rfl]
  cases h : alookup q.2 "color_rgb" with
  | none => rfl
  | some v => simp [tuplify_not_lst]

theorem entryColorsOk_lookup (e : Entry) (h : entryColorsOk e = true)
    (v : Value) (hv : alookup e "color_rgb" = some v) :
    v.isLst = true ∨ v.isTup = true := by
  have hm := alookup_mem _ _ _ hv
  have hval := (List.all_eq_true.mp h) _ hm
  simpa using hval

theorem tupleColors_ensure (s : Sheet)
    (h : colorMembersListOrTuple s = true) :
    tupleColors (ensureRgbTuples s) = true := by
  unfold tupleColors ensureRgbTuples
  rw [List.all_eq_true]
  intro p hp
  obtain ⟨q, hq, rfl⟩ := List.mem_map.mp hp
  have hq2 : entryColorsOk q.2 = true := by
    have hall := List.all_eq_true.mp (by
      unfold colorMembersListOrTuple at h
      exact h)
    exact hall q hq
  show (match alookup (ensureEntry q.2) "color_rgb" with
    | some v => v.isTup
    | none => true) = true
  rw [alookup_ensureEntry, if_pos rfl]
  cases hv : alookup q.2 "color_rgb" with
  | none => rfl
  | some v =>
    simp only [Option.map_some']
    exact tuplify_tup_of_ok v (entryColorsOk_lookup q.2 hq2 v hv)

theorem mem_aset {α : Type} (l : List (String × α)) (key : String) (w : α)
    (p : String × α) (hp : p ∈ aset l key w) : p ∈ l ∨ p = (key, w) := by
  unfold aset at hp
  by_cases hh : ahasKey l key = true
  · rw [if_pos hh] at hp
    unfold mapAtKey at hp
    obtain ⟨q, hq, he⟩ := List.mem_map.mp hp
    by_cases hqk : q.1 = key
    · right
      rw [← he, if_pos hqk, hqk]
    · left
      rw [← he, if_neg hqk]
      exact hq
  · rw [if_neg hh] at hp
    rcases List.mem_append.mp hp with h1 | h2
    · left; exact h1
    · right; simpa using h2

theorem mem_dictUpdate (b u : Entry) (p : String × Value)
    (hp : p ∈ dictUpdate b u) : p ∈ b ∨ p ∈ u := by
  induction u generalizing b with
  | nil => left; exact hp
  | cons q rest ih =>
    obtain ⟨qk, qv⟩ := q
    have hp2 : p ∈ dictUpdate (aset b qk qv) rest := hp
    rcases ih _ hp2 with h1 | h2
    · rcases mem_aset _ _ _ _ h1 with ha | hb
      · left; exact ha
      · right
        rw [hb]
        exact List.mem_cons_self _ _
    · right
      exact List.mem_cons_of_mem _ h2

theorem entryColorsOk_dictUpdate (b u : Entry)
    (hb : entryColorsOk b = true) (hu : entryColorsOk u = true) :
    entryColorsOk (dictUpdate b u) = true := by
  unfold entryColorsOk at *
  rw [List.all_eq_true] at *
  intro p hp
  rcases mem_dictUpdate _ _ _ hp with h1 | h2
  · exact hb p h1
  · exact hu p h2

theorem entryColorsOk_mergeFold (loaded : Sheet) (base : Sheet)
    (hb : ∀ p ∈ base, entryColorsOk p.2 = true)
    (hl : ∀ p ∈ loaded, entryColorsOk p.2 = true) :
    ∀ p ∈ loaded.foldl mergeStep base, entryColorsOk p.2 = true := by
  induction loaded generalizing base with
  | nil => exact hb
  | cons q rest ih =>
    intro p hp
    have hstep : ∀ r ∈ mergeStep base q, entryColorsOk r.2 = true := by
      intro r hr
      obtain ⟨n, d⟩ := q
      unfold mergeStep at hr
      by_cases hh : ahasKey base n = true
      · rw [if_pos hh] at hr
        unfold mapAtKey at hr
        obtain ⟨s0, hs0, he⟩ := List.mem_map.mp hr
        by_cases hsk : s0.1 = n
        · rw [if_pos hsk] at he
          rw [← he]
          exact entryColorsOk_dictUpdate _ _ (hb s0 hs0)
            (hl (n, d) (List.mem_cons_self _ _))
        · rw [if_neg hsk] at he
          rw [← he]
          exact hb s0 hs0
      · rw [if_neg hh] at hr
        rcases List.mem_append.mp hr with h1 | h2
        · exact hb r h1
        · have hrq : r = (n, d) := by simpa using h2
          rw [hrq]
          exact hl (n, d) (List.mem_cons_self _ _)
    exact ih (mergeStep base q) hstep
      (fun r hr => hl r (List.mem_cons_of_mem _ hr)) p hp

theorem entryColorsOk_ensure (e : Entry) (h : entryColorsOk e = true) :
    entryColorsOk (ensureEntry e) = true := by
  unfold entryColorsOk at *
  rw [List.all_eq_true] at *
  intro p hp
  unfold ensureEntry mapAtKey at hp
  obtain ⟨q, hq, he⟩ := List.mem_map.mp hp
  by_cases hqk : q.1 = "color_rgb"
  · rw [if_pos hqk] at he
    have hv := h q hq
    rw [hqk] at hv
    have hv2 : q.2.isLst = true ∨ q.2.isTup = true := by simpa using hv
    have htup := tuplify_tup_of_ok q.2 hv2
    rw [← he]
    simp [htup]
  · rw [if_neg hqk] at he
    rw [← he]
    exact h q hq

theorem colorMembersOk_ensure (s : Sheet)
    (h : colorMembersListOrTuple s = true) :
    colorMembersListOrTuple (ensureRgbTuples s) = true := by
  unfold colorMembersListOrTuple ensureRgbTuples at *
  rw [List.all_eq_true] at *
  intro p hp
  obtain ⟨q, hq, rfl⟩ := List.mem_map.mp hp
  exact entryColorsOk_ensure q.2 (h q hq)

theorem default_colorMembersOk :
    colorMembersListOrTuple DEFAULT_STYLES_CONFIG = true := by decide

/-- Claim C10: after constructing the converter, and after every call to
load_styles or set_styles, no 'color_rgb' value anywhere in the converter's
style configuration is a JSON-style list (unconditionally: the
normalization converts every list), and whenever the incoming
configuration's color values are color triples at all (lists or tuples),
every 'color_rgb' value afterwards is a tuple of its channel values, for
every style key including keys not among the built-in defaults. -/
theorem c10_color_tuple_invariant (cfg ld : Sheet) :
    noListColors (initStylesOp (some cfg)) = true ∧
    noListColors (initStylesOp none) = true ∧
    noListColors (setStylesOp cfg) = true ∧
    noListColors (loadStylesOp (some ld)) = true ∧
    noListColors (loadStylesOp none) = true ∧
    (colorMembersListOrTuple cfg = true →
      tupleColors (initStylesOp (some cfg)) = true ∧
      tupleColors (setStylesOp cfg) = true) ∧
    (colorMembersListOrTuple ld = true →
      tupleColors (loadStylesOp (some ld)) = true) := by
  refine ⟨noListColors_ensure cfg, noListColors_ensure _,
    noListColors_ensure cfg, noListColors_ensure _, noListColors_ensure _,
    fun h => ⟨tupleColors_ensure cfg h, tupleColors_ensure cfg h⟩,
    fun h => ?_⟩
  show tupleColors (ensureRgbTuples (ensureRgbTuples (mergeLoaded ld))) = true
  apply tupleColors_ensure
  apply colorMembersOk_ensure
  unfold colorMembersListOrTuple
  rw [List.all_eq_true]
  intro p hp
  have hdef : ∀ q ∈ DEFAULT_STYLES_CONFIG, entryColorsOk q.2 = true :=
    fun q hq => (List.all_eq_true.mp default_colorMembersOk) q hq
  have hld : ∀ q ∈ ld, entryColorsOk q.2 = true :=
    fun q hq => (List.all_eq_true.mp h) q hq
  exact entryColorsOk_mergeFold ld DEFAULT_STYLES_CONFIG hdef hld p hp

/-- Witness for c10_color_tuple_invariant: a configuration holding a
JSON-style list color is normalized to a tuple by set_styles and accepted
by load_styles. -/
theorem c10_color_tuple_invariant_witness :
    colorMembersListOrTuple [("x", [("color_rgb", Value.rgbList 1 2 3)])] = true ∧
    tupleColors (setStylesOp [("x", [("color_rgb", Value.rgbList 1 2 3)])]) = true ∧
    noListColors
      (loadStylesOp (some [("x", [("color_rgb", Value.rgbList 1 2 3)])])) = true :=
  ⟨by decide,
    ((c10_color_tuple_invariant [("x", [("color_rgb", Value.rgbList 1 2 3)])]
      [("x", [("color_rgb", Value.rgbList 1 2 3)])]).2.2.2.2.2.1
      (by decide)).2,
    (c10_color_tuple_invariant [("x", [("color_rgb", Value.rgbList 1 2 3)])]
      [("x", [("color_rgb", Value.rgbList 1 2 3)])]).2.2.2.1⟩

/-! Table lemmas (claim C4). -/

theorem fillRow_length (n : Nat) (texts : List (List Char)) (hdr : Bool) :
    (fillRow n texts hdr).length = n := by
  simp [fillRow]

theorem fillRow_mem (n : Nat) (texts : List (List Char)) (hdr : Bool)
    (c : WordCell) (hc : c ∈ fillRow n texts hdr) :
    c = emptyWordCell ∨ ∃ t, c = ⟨t, hdr, hdr⟩ := by
  unfold fillRow at hc
  obtain ⟨i, _, he⟩ := List.mem_map.mp hc
  cases ht : texts.get? i with
  | none =>
    left
    rw [← he, ht]
  | some t =>
    right
    exact ⟨t, by rw [← he, ht]⟩

theorem fillRow_get_of_ge (n : Nat) (texts : List (List Char)) (hdr : Bool)
    (i : Nat) (hge : texts.length ≤ i) (hlt : i < n) :
    (fillRow n texts hdr).get? i = some emptyWordCell := by
  unfold fillRow
  rw [List.get?_map, List.get?_range hlt]
  simp only [Option.map_some']
  rw [List.get?_eq_none.mpr hge]

/-- Claim C4: for a table with at least one row whose first row has at least
one cell, the column count is the first row's cell count (every produced
row has that many cells, extra input cells being ignored); when a first-row
cell is header-marked the output is one bold centered header row plus one
data row per remaining input row, otherwise no header row and one data row
per input row; and a data row with fewer cells than the column count leaves
its trailing cells empty. -/
theorem c4_table_shape (r0 : List HtmlCell) (rest : List (List HtmlCell))
    (hne : r0 ≠ []) :
    ∃ out, processTable (r0 :: rest) = some (r0.any (fun c => c.isTh), out) ∧
      out.length = (r0 :: rest).length ∧
      (∀ row ∈ out, row.length = r0.length) ∧
      (r0.any (fun c => c.isTh) = true →
        ∃ hrow, out.head? = some hrow ∧
          ∀ c ∈ hrow, c = emptyWordCell ∨ (c.bold = true ∧ c.centered = true)) ∧
      (r0.any (fun c => c.isTh) = false →
        ∀ row ∈ out, ∀ c ∈ row, c.bold = false ∧ c.centered = false) ∧
      (∀ j row, rest.get? j = some row → ∀ i, row.length ≤ i → i < r0.length →
        (out.get? (j + 1)).bind (fun wr => wr.get? i) = some emptyWordCell) := by
  have hlen : ¬(r0.length = 0) := fun h0 => hne (List.length_eq_zero.mp h0)
  have hpt : processTable (r0 :: rest) = some (r0.any (fun c => c.isTh),
      (if r0.any (fun c => c.isTh) then
        fillRow r0.length ((r0.filter (fun c => c.isTh)).map (fun c => pyStrip c.text)) true
      else fillRow r0.length (r0.map (fun c => pyStrip c.text)) false) ::
      rest.map (fun r =>
        fillRow r0.length ((r.filter (fun c => !c.isTh)).map (fun c => pyStrip c.text)) false)) := by
    simp only [processTable, if_neg hlen]
  refine ⟨_, hpt, ?_, ?_, ?_, ?_, ?_⟩
  · simp
  · intro row hrow
    rcases List.mem_cons.mp hrow with h1 | h2
    · subst h1
      by_cases hh : r0.any (fun c => c.isTh) = true <;>
        simp [hh, fillRow_length]
    · obtain ⟨r, _, he⟩ := List.mem_map.mp h2
      rw [← he, fillRow_length]
  · intro hh
    rw [if_pos hh]
    refine ⟨_, rfl, ?_⟩
    intro c hc
    rcases fillRow_mem _ _ _ c hc with h1 | ⟨t, h2⟩
    · left; exact h1
    · right; rw [h2]; exact ⟨rfl, rfl⟩
  · intro hh
    rw [Bool.eq_false_iff] at hh
    intro row hrow c hc
    have hfalse : r0.any (fun c => c.isTh) = false := by
      cases h : r0.any (fun c => c.isTh)
      · rfl
      · exact absurd h hh
    rcases List.mem_cons.mp hrow with h1 | h2
    · subst h1
      rw [if_neg (by rw [hfalse]; simp)] at hc
      rcases fillRow_mem _ _ _ c hc with he | ⟨t, ht⟩
      · rw [he]; exact ⟨rfl, rfl⟩
      · rw [ht]; exact ⟨rfl, rfl⟩
    · obtain ⟨r, _, he⟩ := List.mem_map.mp h2
      rw [← he] at hc
      rcases fillRow_mem _ _ _ c hc with h3 | ⟨t, ht⟩
      · rw [h3]; exact ⟨rfl, rfl⟩
      · rw [ht]; exact ⟨rfl, rfl⟩
  · intro j row hj i hge hlt
    have hout : (((if r0.any (fun c => c.isTh) then
        fillRow r0.length ((r0.filter (fun c => c.isTh)).map (fun c => pyStrip c.text)) true
      else fillRow r0.length (r0.map (fun c => pyStrip c.text)) false) ::
      rest.map (fun r =>
        fillRow r0.length ((r.filter (fun c => !c.isTh)).map (fun c => pyStrip c.text)) false)).get? (j + 1)) =
        some (fillRow r0.length ((row.filter (fun c => !c.isTh)).map (fun c => pyStrip c.text)) false) := by
      rw [List.get?_cons_succ, List.get?_map, hj]
      rfl
    rw [hout]
    show (fillRow r0.length ((row.filter (fun c => !c.isTh)).map (fun c => pyStrip c.text)) false).get? i = some emptyWordCell
    apply fillRow_get_of_ge
    · calc ((row.filter (fun c => !c.isTh)).map (fun c => pyStrip c.text)).length
          = (row.filter (fun c => !c.isTh)).length := by rw [List.length_map]
        _ ≤ row.length := List.length_filter_le _ _
        _ ≤ i := hge
    · exact hlt

/-- Witness for c4_table_shape: a two-row table with a header-marked first
row. -/
theorem c4_table_shape_witness :
    ([HtmlCell.mk true ['h']] ≠ []) ∧
    ∃ out, processTable [[HtmlCell.mk true ['h']], [HtmlCell.mk false ['d']]] =
        some ([HtmlCell.mk true ['h']].any (fun c => c.isTh), out) ∧
      out.length = 2 := by
  refine ⟨by decide, ?_⟩
  obtain ⟨out, h1, h2, _⟩ :=
    c4_table_shape [HtmlCell.mk true ['h']] [[HtmlCell.mk false ['d']]] (by decide)
  exact ⟨out, h1, h2⟩

/-! Inline composer lemmas (claims C5, C6, C7). -/

theorem addInlineList_append (env : Env) (parent : Entry)
    (ns1 ns2 : List Node) :
    addInlineList env parent (ns1 ++ ns2) =
      addInlineList env parent ns1 ++ addInlineList env parent ns2 := by
  induction ns1 with
  | nil => rfl
  | cons c cs ih =>
    show addInlineNode env parent c ++ addInlineList env parent (cs ++ ns2) =
      (addInlineNode env parent c ++ addInlineList env parent cs) ++
        addInlineList env parent ns2
    rw [ih, List.append_assoc]

theorem basename_split (cs : List Char) :
    cs = (cs.reverse.dropWhile (fun c => !(c = '/'))).reverse ++
      pyBasename cs := by
  unfold pyBasename
  conv_lhs => rw [← List.reverse_reverse cs,
    ← List.takeWhile_append_dropWhile (fun c => !(c = '/')) cs.reverse]
  rw [List.reverse_append]

/-- Claim C6: image handling is total and local. A remote (http/https)
locator yields exactly the web placeholder run, with no file-system or
network interaction; a relative locator is resolved against the source
document's directory and, when that resolved path does not exist, yields
exactly the not-found placeholder run, whose text contains the alt text
(or, when the alt text is empty, contains the locator's filename); and
inline processing is position-local, so the runs of every sibling node are
unaffected by an image node between them. -/
theorem c6_image_resolution (env : Env) (src alt : List Char) :
    (("http://".toList.isPrefixOf src || "https://".toList.isPrefixOf src) = true →
      addImageRuns env src alt = [webImagePlaceholder src alt]) ∧
    (("http://".toList.isPrefixOf src || "https://".toList.isPrefixOf src) = false →
      "file:///".toList.isPrefixOf src = false →
      isAbsPath src = false →
      ¬(env.mdDir = []) →
      env.fsExists (pathJoin env.mdDir src) = false →
      addImageRuns env src alt = [notFoundPlaceholder src alt] ∧
      (¬(alt = []) → ∃ s t, (notFoundPlaceholder src alt).text = s ++ alt ++ t) ∧
      (alt = [] → ∃ s t,
        (notFoundPlaceholder src alt).text = s ++ pyBasename src ++ t)) ∧
    (∀ (parent : Entry) (ns1 : List Node) (n : Node) (ns2 : List Node),
      addInlineList env parent (ns1 ++ n :: ns2) =
        addInlineList env parent ns1 ++ addInlineNode env parent n ++
          addInlineList env parent ns2) := by
  refine ⟨?_, ?_, ?_⟩
  · intro h
    unfold addImageRuns
    rw [if_pos h]
  · intro hweb hfile habs hmd hfs
    have hruns : addImageRuns env src alt = [notFoundPlaceholder src alt] := by
      have hb := Bool.or_eq_false_iff.mp hweb
      have hlp : imgLocalPath env src = pathJoin env.mdDir src := by
        unfold imgLocalPath
        simp only [hfile, Bool.false_eq_true, if_false, habs, Bool.not_false,
          decide_eq_false hmd, Bool.true_and, Bool.and_true, if_true]
      unfold addImageRuns
      simp only [hb.1, hb.2, Bool.or_false, Bool.false_eq_true, if_false,
        hlp, hfs, Bool.and_false]
    refine ⟨hruns, ?_, ?_⟩
    · intro halt
      refine ⟨"[Image not found: ".toList, "]".toList, ?_⟩
      show "[Image not found: ".toList ++ altOr alt src ++ "]".toList = _
      rw [altOr, if_neg halt]
    · intro halt
      refine ⟨"[Image not found: ".toList ++
          (src.reverse.dropWhile (fun c => !(c = '/'))).reverse, "]".toList, ?_⟩
      show "[Image not found: ".toList ++ altOr alt src ++ "]".toList = _
      rw [altOr, if_pos halt]
      conv_lhs => rw [basename_split src]
      simp [List.append_assoc]
  · intro parent ns1 n ns2
    rw [addInlineList_append, List.append_assoc]
    rfl

/-- Witness for c6_image_resolution at the spec's scenario: alt "diagram",
relative locator "img/x.png", no file on disk; the emitted run is the
not-found placeholder and its text contains the alt text. -/
theorem c6_image_resolution_witness :
    addImageRuns
        ⟨DEFAULT_STYLES_CONFIG, "/docs".toList, fun _ => false, fun x => x,
          fun _ => false⟩
        "img/x.png".toList "diagram".toList =
      [notFoundPlaceholder "img/x.png".toList "diagram".toList] ∧
    (∃ s t, (notFoundPlaceholder "img/x.png".toList "diagram".toList).text =
      s ++ "diagram".toList ++ t) := by
  obtain ⟨h1, h2, _⟩ :=
    (c6_image_resolution
      ⟨DEFAULT_STYLES_CONFIG, "/docs".toList, fun _ => false, fun x => x,
        fun _ => false⟩
      "img/x.png".toList "diagram".toList).2.1
    (by decide) (by decide) (by decide) (by decide) (by decide)
  exact ⟨h1, h2 (by decide)⟩

theorem addInlineNode_code (env : Env) (parent : Entry)
    (attrs : List (String × List Char)) (cs : List Node) :
    addInlineNode env parent (.elem "code" attrs cs) =
      (if !(getTextList cs = []) then
        [applyFontStyle .codeRun (getTextList cs) (inlineCodeCfg env)
          (some (baseSizeVal parent))]
      else []) := by
  simp only [addInlineNode]
  rw [if_neg (by decide), if_neg (by decide), if_pos (by decide)]

/-- Claim C5 counterexample: when the inline-code style entry also carries
an absolute 'font_size' (which the GUI's style widgets do produce), the
emitted run's resolved size is that absolute size, not ratio times the
inherited size: with inherited size 12, ratio 0.9 and absolute size 20 the
resolved size is 20, not 10.8. -/
theorem c5_absolute_size_counterexample :
    (addInlineNode
        ⟨[("paragraph", [("font_size", Value.int 12)]),
          ("inline_code", [("font_size", Value.int 20),
            ("font_size_ratio", Value.float (9/10))])],
          [], fun _ => false, fun x => x, fun _ => false⟩
        [("font_size", Value.int 12)]
        (.elem "code" [] [.text ['x']])).map (fun r => r.sizePt) =
      [some 20] ∧
    ¬((20 : ℚ) = 12 * (9 / 10)) := by
  constructor
  · decide
  · norm_num

/-- Claim C5 (amended): for every inline code node composed inside a block
whose inherited style has point size s, when the inline-code style entry
has size ratio r and no absolute 'font_size' field of its own, the emitted
run's resolved point size is exactly s times r (for s = 12 and r = 0.9,
exactly 10.8 points); an absolute 'font_size' on the entry, when present,
takes priority instead. -/
theorem c5_inline_code_ratio_size (env : Env) (parent : Entry)
    (attrs : List (String × List Char)) (cs : List Node)
    (rv sv : Value) (rq sq : ℚ)
    (h1 : alookup (inlineCodeCfg env) "font_size" = none)
    (h2 : alookup (inlineCodeCfg env) "font_size_ratio" = some rv)
    (h3 : asNum rv = some rq)
    (h4 : alookup parent "font_size" = some sv)
    (h5 : asNum sv = some sq)
    (h6 : ¬(getTextList cs = [])) :
    addInlineNode env parent (.elem "code" attrs cs) =
      [applyFontStyle .codeRun (getTextList cs) (inlineCodeCfg env)
        (some (baseSizeVal parent))] ∧
    (applyFontStyle .codeRun (getTextList cs) (inlineCodeCfg env)
      (some (baseSizeVal parent))).sizePt = some (sq * rq) := by
  constructor
  · rw [addInlineNode_code]
    rw [if_pos (by simpa using h6)]
  · show resolveSize (inlineCodeCfg env) (some (baseSizeVal parent)) =
      some (sq * rq)
    unfold resolveSize baseSizeVal
    rw [h1, h2, h4]
    show (asNum ((some sv).getD (.int 12))).bind
      (fun b => (asNum rv).map (fun r => b * r)) = some (sq * rq)
    rw [Option.getD_some, h5, h3]
    rfl

/-- Witness for c5_inline_code_ratio_size: the default styles (inherited
paragraph size 12, inline-code ratio 0.9, no absolute size) resolve an
inline code run to exactly 10.8 points. -/
theorem c5_inline_code_ratio_size_witness :
    addInlineNode
        ⟨DEFAULT_STYLES_CONFIG, [], fun _ => false, fun x => x, fun _ => false⟩
        defaultParagraph (.elem "code" [] [.text ['x']]) =
      [applyFontStyle .codeRun (getTextList [.text ['x']])
        (inlineCodeCfg
          ⟨DEFAULT_STYLES_CONFIG, [], fun _ => false, fun x => x, fun _ => false⟩)
        (some (baseSizeVal defaultParagraph))] ∧
    (applyFontStyle .codeRun (getTextList [.text ['x']])
      (inlineCodeCfg
        ⟨DEFAULT_STYLES_CONFIG, [], fun _ => false, fun x => x, fun _ => false⟩)
      (some (baseSizeVal defaultParagraph))).sizePt = some (54 / 5) := by
  obtain ⟨h1, h2⟩ := c5_inline_code_ratio_size
    ⟨DEFAULT_STYLES_CONFIG, [], fun _ => false, fun x => x, fun _ => false⟩
    defaultParagraph [] [.text ['x']]
    (Value.float (9/10)) (Value.int 12) (9/10) (((12 : Int) : ℚ))
    (by decide) rfl rfl (by decide) rfl (by decide)
  refine ⟨h1, ?_⟩
  rw [h2]
  norm_num

theorem addInlineList_singleton (env : Env) (parent : Entry) (t : Node) :
    addInlineList env parent [t] = addInlineNode env parent t := by
  show addInlineNode env parent t ++ ([] : List Run) = addInlineNode env parent t
  exact List.append_nil _

theorem mem_addInlineList (env : Env) (parent : Entry) :
    ∀ (cs : List Node) (r : Run), r ∈ addInlineList env parent cs →
      ∃ c ∈ cs, r ∈ addInlineNode env parent c := by
  intro cs
  induction cs with
  | nil =>
    intro r hr
    simp [addInlineList] at hr
  | cons c cs ih =>
    intro r hr
    rw [show addInlineList env parent (c :: cs) =
      addInlineNode env parent c ++ addInlineList env parent cs from rfl] at hr
    rcases List.mem_append.mp hr with h1 | h2
    · exact ⟨c, List.mem_cons_self _ _, h1⟩
    · obtain ⟨c2, hc2, hr2⟩ := ih r h2
      exact ⟨c2, List.mem_cons_of_mem _ hc2, hr2⟩

theorem getBool_aset_same (e : Entry) (key : String) :
    getBoolField (aset e key (.bool true)) key = true := by
  unfold getBoolField
  rw [alookup_aset, if_pos rfl]

theorem getBool_aset_other (e : Entry) (key k : String) (v : Value)
    (h : ¬(k = key)) : getBoolField (aset e key v) k = getBoolField e k := by
  unfold getBoolField
  rw [alookup_aset, if_neg h]

theorem addInlineNode_strongish (env : Env) (parent : Entry)
    (attrs : List (String × List Char)) (cs : List Node) (tag : String)
    (h : tag = "strong" ∨ tag = "b") :
    addInlineNode env parent (.elem tag attrs cs) =
      addInlineList env (aset parent "bold" (.bool true)) cs := by
  simp only [addInlineNode]
  rw [if_pos (by rcases h with h | h <;> simp [h])]

theorem addInlineNode_emish (env : Env) (parent : Entry)
    (attrs : List (String × List Char)) (cs : List Node) (tag : String)
    (h : tag = "em" ∨ tag = "i") :
    addInlineNode env parent (.elem tag attrs cs) =
      addInlineList env (aset parent "italic" (.bool true)) cs := by
  simp only [addInlineNode]
  rw [if_neg (by rcases h with h | h <;> subst h <;> decide),
    if_pos (by rcases h with h | h <;> simp [h])]

theorem addInlineNode_img (env : Env) (parent : Entry)
    (attrs : List (String × List Char)) (cs : List Node) :
    addInlineNode env parent (.elem "img" attrs cs) =
      addImageRuns env ((alookup attrs "src").getD [])
        ((alookup attrs "alt").getD []) := by
  simp only [addInlineNode]
  rw [if_neg (by decide), if_neg (by decide), if_neg (by decide)]
  simp

theorem addInlineNode_link (env : Env) (parent : Entry)
    (attrs : List (String × List Char)) (cs : List Node) :
    addInlineNode env parent (.elem "a" attrs cs) =
      [applyFontStyle .linkRun (getTextList cs) parent
        (some (baseSizeVal parent))] := by
  simp only [addInlineNode]
  rw [if_neg (by decide), if_neg (by decide), if_neg (by decide),
    if_neg (by decide)]
  simp

theorem addInlineNode_br (env : Env) (parent : Entry)
    (attrs : List (String × List Char)) (cs : List Node) :
    addInlineNode env parent (.elem "br" attrs cs) =
      [plainRun .lineBreak []] := by
  simp only [addInlineNode]
  rw [if_neg (by decide), if_neg (by decide), if_neg (by decide),
    if_neg (by decide), if_neg (by decide)]
  simp

theorem addInlineNode_other (env : Env) (parent : Entry)
    (attrs : List (String × List Char)) (cs : List Node) (tag : String)
    (h1 : ¬(tag = "strong")) (h2 : ¬(tag = "b")) (h3 : ¬(tag = "em"))
    (h4 : ¬(tag = "i")) (h5 : ¬(tag = "code")) (h6 : ¬(tag = "img"))
    (h7 : ¬(tag = "a")) (h8 : ¬(tag = "br")) :
    addInlineNode env parent (.elem tag attrs cs) =
      addInlineList env parent cs := by
  simp only [addInlineNode]
  rw [if_neg (by simp [h1, h2]), if_neg (by simp [h3, h4]), if_neg h5,
    if_neg h6, if_neg h7, if_neg h8]

theorem addImageRuns_not_text (env : Env) (src alt : List Char) :
    ∀ r ∈ addImageRuns env src alt,
      ¬(r.kind = RunKind.textRun ∨ r.kind = RunKind.linkRun) := by
  intro r hr hk
  unfold addImageRuns at hr
  split_ifs at hr
  · have hre : r = webImagePlaceholder src alt := List.mem_singleton.mp hr
    subst hre
    rcases hk with hk | hk <;> simp [webImagePlaceholder, plainRun] at hk
  · have hre : r = plainRun .pictureRun [] := List.mem_singleton.mp hr
    subst hre
    rcases hk with hk | hk <;> simp [plainRun] at hk
  · rcases List.mem_cons.mp hr with hre | hre
    · subst hre
      rcases hk with hk | hk <;> simp [plainRun] at hk
    · have hre2 : r = loadErrorPlaceholder _ alt := List.mem_singleton.mp hre
      subst hre2
      rcases hk with hk | hk <;> simp [loadErrorPlaceholder, plainRun] at hk
  · have hre : r = notFoundPlaceholder src alt := List.mem_singleton.mp hr
    subst hre
    rcases hk with hk | hk <;> simp [notFoundPlaceholder, plainRun] at hk

theorem inline_flag_aux :
    ∀ (n : Nat) (t : Node), sizeOf t ≤ n → ∀ (env : Env) (parent : Entry),
      ∀ r ∈ addInlineNode env parent t,
        (r.kind = RunKind.textRun ∨ r.kind = RunKind.linkRun) →
        (getBoolField parent "bold" = true → r.bold = some true) ∧
        (getBoolField parent "italic" = true → r.italic = some true) := by
  intro n
  induction n with
  | zero =>
    intro t ht
    exfalso
    cases t <;> simp at ht
  | succ n ih =>
    intro t ht env parent r hr hk
    cases t with
    | text s =>
      simp only [addInlineNode] at hr
      split_ifs at hr
      · have hre : r = applyFontStyle .textRun s parent
            (some (baseSizeVal parent)) := List.mem_singleton.mp hr
        subst hre
        constructor
        · intro hb
          show some (getBoolField parent "bold") = some true
          rw [hb]
        · intro hi
          show some (getBoolField parent "italic") = some true
          rw [hi]
      · simp at hr
    | elem tag attrs cs =>
      have hszc : ∀ c ∈ cs, sizeOf c ≤ n := by
        intro c hc
        have hlt : sizeOf c < sizeOf cs := List.sizeOf_lt_of_mem hc
        have hcs : sizeOf cs < sizeOf (Node.elem tag attrs cs) := by
          simp
        omega
      by_cases hstrong : tag = "strong" ∨ tag = "b"
      · rw [addInlineNode_strongish env parent attrs cs tag hstrong] at hr
        obtain ⟨c, hc, hrc⟩ := mem_addInlineList env _ cs r hr
        have hrec := ih c (hszc c hc) env (aset parent "bold" (.bool true))
          r hrc hk
        refine ⟨fun _ => hrec.1 (getBool_aset_same parent "bold"), fun hi => ?_⟩
        exact hrec.2 (by
          rw [getBool_aset_other parent "bold" "italic" _ (by decide)]
          exact hi)
      · by_cases hem : tag = "em" ∨ tag = "i"
        · rw [addInlineNode_emish env parent attrs cs tag hem] at hr
          obtain ⟨c, hc, hrc⟩ := mem_addInlineList env _ cs r hr
          have hrec := ih c (hszc c hc) env (aset parent "italic" (.bool true))
            r hrc hk
          refine ⟨fun hb => ?_, fun _ => hrec.2 (getBool_aset_same parent "italic")⟩
          exact hrec.1 (by
            rw [getBool_aset_other parent "italic" "bold" _ (by decide)]
            exact hb)
        · by_cases hcode : tag = "code"
          · subst hcode
            rw [addInlineNode_code] at hr
            split_ifs at hr
            · have hre : r = applyFontStyle .codeRun (getTextList cs)
                  (inlineCodeCfg env) (some (baseSizeVal parent)) :=
                List.mem_singleton.mp hr
              subst hre
              rcases hk with hk | hk <;> simp [applyFontStyle] at hk
            · simp at hr
          · by_cases himg : tag = "img"
            · subst himg
              rw [addInlineNode_img] at hr
              exact absurd hk (addImageRuns_not_text env _ _ r hr)
            · by_cases hlink : tag = "a"
              · subst hlink
                rw [addInlineNode_link] at hr
                have hre : r = applyFontStyle .linkRun (getTextList cs) parent
                    (some (baseSizeVal parent)) := List.mem_singleton.mp hr
                subst hre
                constructor
                · intro hb
                  show some (getBoolField parent "bold") = some true
                  rw [hb]
                · intro hi
                  show some (getBoolField parent "italic") = some true
                  rw [hi]
              · by_cases hbr : tag = "br"
                · subst hbr
                  rw [addInlineNode_br] at hr
                  have hre : r = plainRun .lineBreak [] :=
                    List.mem_singleton.mp hr
                  subst hre
                  rcases hk with hk | hk <;> simp [plainRun] at hk
                · have hns : ¬(tag = "strong") ∧ ¬(tag = "b") := by
                    constructor <;> intro he <;> exact hstrong (by simp [he])
                  have hne : ¬(tag = "em") ∧ ¬(tag = "i") := by
                    constructor <;> intro he <;> exact hem (by simp [he])
                  rw [addInlineNode_other env parent attrs cs tag hns.1 hns.2
                    hne.1 hne.2 hcode himg hlink hbr] at hr
                  obtain ⟨c, hc, hrc⟩ := mem_addInlineList env _ cs r hr
                  exact ih c (hszc c hc) env parent r hrc hk

theorem inline_flag (t : Node) (env : Env) (parent : Entry) (r : Run)
    (hr : r ∈ addInlineNode env parent t)
    (hk : r.kind = RunKind.textRun ∨ r.kind = RunKind.linkRun) :
    (getBoolField parent "bold" = true → r.bold = some true) ∧
    (getBoolField parent "italic" = true → r.italic = some true) :=
  inline_flag_aux (sizeOf t) t (Nat.le_refl _) env parent r hr hk

theorem chain_flags (env : Env) :
    ∀ (ns : List String) (parent : Entry) (t : Node),
      (getBoolField parent "bold" = true ∨ ∃ m ∈ ns, m = "strong" ∨ m = "b") →
      (getBoolField parent "italic" = true ∨ ∃ m ∈ ns, m = "em" ∨ m = "i") →
      (∀ m ∈ ns, recursingInlineTag m = true) →
      ∀ r ∈ addInlineNode env parent (wrapChain ns t),
        (r.kind = RunKind.textRun ∨ r.kind = RunKind.linkRun) →
        r.bold = some true ∧ r.italic = some true := by
  intro ns
  induction ns with
  | nil =>
    intro parent t hb hi _ r hr hk
    have hbtrue : getBoolField parent "bold" = true := by
      rcases hb with h | ⟨m, hm, _⟩
      · exact h
      · simp at hm
    have hitrue : getBoolField parent "italic" = true := by
      rcases hi with h | ⟨m, hm, _⟩
      · exact h
      · simp at hm
    have := inline_flag t env parent r hr hk
    exact ⟨this.1 hbtrue, this.2 hitrue⟩
  | cons m ns ih =>
    intro parent t hb hi hrec r hr hk
    have hwrap : wrapChain (m :: ns) t = .elem m [] [wrapChain ns t] := rfl
    rw [hwrap] at hr
    have hnotself_b : ∀ m2, (m2 = "strong" ∨ m2 = "b") →
        (m2 = "em" ∨ m2 = "i") → False := by
      rintro m2 (rfl | rfl) (h | h) <;> simp at h
    by_cases hstrong : m = "strong" ∨ m = "b"
    · rw [addInlineNode_strongish env parent _ _ m hstrong,
        addInlineList_singleton] at hr
      refine ih (aset parent "bold" (.bool true)) t
        (Or.inl (getBool_aset_same parent "bold")) ?_
        (fun m2 hm2 => hrec m2 (List.mem_cons_of_mem _ hm2)) r hr hk
      rcases hi with h | ⟨m2, hm2, hm2e⟩
      · left
        rw [getBool_aset_other parent "bold" "italic" _ (by decide)]
        exact h
      · rcases List.mem_cons.mp hm2 with rfl | hm2n
        · exact (hnotself_b m2 hstrong hm2e).elim
        · exact Or.inr ⟨m2, hm2n, hm2e⟩
    · by_cases hem : m = "em" ∨ m = "i"
      · rw [addInlineNode_emish env parent _ _ m hem,
          addInlineList_singleton] at hr
        refine ih (aset parent "italic" (.bool true)) t ?_
          (Or.inl (getBool_aset_same parent "italic"))
          (fun m2 hm2 => hrec m2 (List.mem_cons_of_mem _ hm2)) r hr hk
        rcases hb with h | ⟨m2, hm2, hm2e⟩
        · left
          rw [getBool_aset_other parent "italic" "bold" _ (by decide)]
          exact h
        · rcases List.mem_cons.mp hm2 with rfl | hm2n
          · exact (hnotself_b m2 hm2e hem).elim
          · exact Or.inr ⟨m2, hm2n, hm2e⟩
      · have hns : ¬(m = "strong") ∧ ¬(m = "b") := by
          constructor <;> intro he <;> exact hstrong (by simp [he])
        have hne : ¬(m = "em") ∧ ¬(m = "i") := by
          constructor <;> intro he <;> exact hem (by simp [he])
        have hm := hrec m (List.mem_cons_self _ _)
        unfold recursingInlineTag at hm
        simp [hns.1, hns.2, hne.1, hne.2] at hm
        rw [addInlineNode_other env parent _ _ m hns.1 hns.2 hne.1 hne.2
          hm.1.1.1 hm.1.1.2 hm.1.2 hm.2, addInlineList_singleton] at hr
        refine ih parent t ?_ ?_
          (fun m2 hm2 => hrec m2 (List.mem_cons_of_mem _ hm2)) r hr hk
        · rcases hb with h | ⟨m2, hm2, hm2e⟩
          · exact Or.inl h
          · rcases List.mem_cons.mp hm2 with rfl | hm2n
            · exact absurd hm2e (by
                rintro (he | he) <;> [exact hns.1 he; exact hns.2 he])
            · exact Or.inr ⟨m2, hm2n, hm2e⟩
        · rcases hi with h | ⟨m2, hm2, hm2e⟩
          · exact Or.inl h
          · rcases List.mem_cons.mp hm2 with rfl | hm2n
            · exact absurd hm2e (by
                rintro (he | he) <;> [exact hne.1 he; exact hne.2 he])
            · exact Or.inr ⟨m2, hm2n, hm2e⟩

/-- Claim C7: the emphasis branches recurse with the inherited style
overlaid by bold=true (strong, b) or italic=true (em, i), every other
inherited field unchanged; consequently nesting composes: for every chain
of wrapper tags containing a strong-like and an em-like tag (in either
order, at any depth, possibly through other recursing inline tags), every
plain-text or link-text run emitted inside it carries both bold=true and
italic=true. -/
theorem c7_emphasis_composition (env : Env) :
    (∀ (parent : Entry) (attrs : List (String × List Char)) (cs : List Node),
      addInlineNode env parent (.elem "strong" attrs cs) =
        addInlineList env (aset parent "bold" (.bool true)) cs ∧
      addInlineNode env parent (.elem "b" attrs cs) =
        addInlineList env (aset parent "bold" (.bool true)) cs ∧
      addInlineNode env parent (.elem "em" attrs cs) =
        addInlineList env (aset parent "italic" (.bool true)) cs ∧
      addInlineNode env parent (.elem "i" attrs cs) =
        addInlineList env (aset parent "italic" (.bool true)) cs) ∧
    (∀ (parent : Entry) (key f : String) (v : Value), ¬(f = key) →
      alookup (aset parent key v) f = alookup parent f) ∧
    (∀ (ns : List String) (parent : Entry) (t : Node),
      (∃ m ∈ ns, m = "strong" ∨ m = "b") →
      (∃ m ∈ ns, m = "em" ∨ m = "i") →
      (∀ m ∈ ns, recursingInlineTag m = true) →
      ∀ r ∈ addInlineNode env parent (wrapChain ns t),
        (r.kind = RunKind.textRun ∨ r.kind = RunKind.linkRun) →
        r.bold = some true ∧ r.italic = some true) := by
  refine ⟨?_, ?_, ?_⟩
  · intro parent attrs cs
    exact ⟨addInlineNode_strongish env parent attrs cs _ (Or.inl rfl),
      addInlineNode_strongish env parent attrs cs _ (Or.inr rfl),
      addInlineNode_emish env parent attrs cs _ (Or.inl rfl),
      addInlineNode_emish env parent attrs cs _ (Or.inr rfl)⟩
  · intro parent key f v hf
    rw [alookup_aset, if_neg hf]
  · intro ns parent t hs he hrec
    exact chain_flags env ns parent t (Or.inr hs) (Or.inr he) hrec

/-- Witness for c7_emphasis_composition: a text node nested as
em(strong(text)) with the default paragraph style; every text run emitted
for it carries both flags. -/
theorem c7_emphasis_composition_witness :
    (∃ m ∈ ["em", "strong"], m = "strong" ∨ m = "b") ∧
    (∃ m ∈ ["em", "strong"], m = "em" ∨ m = "i") ∧
    (∀ m ∈ ["em", "strong"], recursingInlineTag m = true) ∧
    (addInlineNode
        ⟨DEFAULT_STYLES_CONFIG, [], fun _ => false, fun x => x, fun _ => false⟩
        defaultParagraph
        (wrapChain ["em", "strong"] (.text ['h', 'i']))).length = 1 ∧
    ∀ r ∈ addInlineNode
        ⟨DEFAULT_STYLES_CONFIG, [], fun _ => false, fun x => x, fun _ => false⟩
        defaultParagraph (wrapChain ["em", "strong"] (.text ['h', 'i'])),
      (r.kind = RunKind.textRun ∨ r.kind = RunKind.linkRun) →
      r.bold = some true ∧ r.italic = some true :=
  ⟨by decide, by decide, by decide, by decide,
    (c7_emphasis_composition
      ⟨DEFAULT_STYLES_CONFIG, [], fun _ => false, fun x => x, fun _ => false⟩).2.2
      ["em", "strong"] defaultParagraph (.text ['h', 'i'])
      (by decide) (by decide) (by decide)⟩

/-! List-item lemmas (claims C3 and C8). -/

theorem get?_modifyAt {α : Type} (f : α → α) :
    ∀ (i j : Nat) (l : List α),
      (modifyAt i f l).get? j =
        if i = j then (l.get? j).map f else l.get? j := by
  intro i j l
  induction l generalizing i j with
  | nil => cases i <;> simp [modifyAt]
  | cons x xs ih =>
    cases i with
    | zero => cases j <;> simp [modifyAt]
    | succ n =>
      cases j with
      | zero => simp [modifyAt]
      | succ m =>
        show (modifyAt n f xs).get? m = _
        rw [ih n m]
        by_cases h : n = m
        · rw [if_pos h, if_pos (by rw [h])]
          rfl
        · rw [if_neg h, if_neg (fun e => h (Nat.succ_injective e))]
          rfl

/-- The bullet-paragraph invariant of the list-item loop: whenever
`first_para_in_item` exists, it is a list paragraph with the item's bullet
formatting. -/
def LiInv {β : Type} (fmt : BulletFmt) (st : LiState β) : Prop :=
  ∀ i, st.firstIdx = some i →
    ∃ rs, st.doc.get? i = some (.listPara fmt rs)

theorem ensureBullet_some {β : Type} (fmt : BulletFmt) (st : LiState β)
    (i : Nat) (hf : st.firstIdx = some i) : ensureBullet fmt st = st := by
  unfold ensureBullet
  rw [hf]

theorem ensureBullet_none {β : Type} (fmt : BulletFmt) (st : LiState β)
    (hf : st.firstIdx = none) :
    ensureBullet fmt st =
      ⟨st.doc ++ [.listPara fmt []], some st.doc.length, st.flagFirst⟩ := by
  unfold ensureBullet
  rw [hf]

theorem appendRuns_some {β : Type} (rs : List Run) (st : LiState β)
    (i : Nat) (hf : st.firstIdx = some i) :
    appendRunsToBullet rs st =
      ⟨modifyAt i (appendToPara rs) st.doc, st.firstIdx, st.flagFirst⟩ := by
  unfold appendRunsToBullet
  rw [hf]

theorem appendRuns_none {β : Type} (rs : List Run) (st : LiState β)
    (hf : st.firstIdx = none) : appendRunsToBullet rs st = st := by
  unfold appendRunsToBullet
  rw [hf]

theorem ensureBullet_inv {β : Type} (fmt : BulletFmt) (st : LiState β)
    (h : LiInv fmt st) : LiInv fmt (ensureBullet fmt st) := by
  cases hf : st.firstIdx with
  | some j =>
    rw [ensureBullet_some fmt st j hf]
    exact h
  | none =>
    rw [ensureBullet_none fmt st hf]
    intro i hi
    have hlen : st.doc.length = i := by simpa using hi
    subst hlen
    exact ⟨[], List.get?_concat_length _ _⟩

theorem appendRuns_inv {β : Type} (fmt : BulletFmt) (rs : List Run)
    (st : LiState β) (h : LiInv fmt st) :
    LiInv fmt (appendRunsToBullet rs st) := by
  cases hf : st.firstIdx with
  | none =>
    rw [appendRuns_none rs st hf]
    exact h
  | some j =>
    rw [appendRuns_some rs st j hf]
    intro i hi
    have hij : j = i := by
      have : st.firstIdx = some i := hi
      rw [hf] at this
      exact Option.some_injective _ this
    subst hij
    obtain ⟨rs0, hrs0⟩ := h j hf
    refine ⟨rs0 ++ rs, ?_⟩
    show (modifyAt j (appendToPara rs) st.doc).get? j = _
    rw [get?_modifyAt, if_pos rfl, hrs0]
    rfl

theorem doc_append_inv {β : Type} (fmt : BulletFmt) (st : LiState β)
    (xs : List (LiBlock β)) (b : Bool) (h : LiInv fmt st) :
    LiInv fmt ⟨st.doc ++ xs, st.firstIdx, b⟩ := by
  intro i hi
  obtain ⟨rs, hrs⟩ := h i hi
  refine ⟨rs, ?_⟩
  show (st.doc ++ xs).get? i = _
  rw [List.get?_append (List.get?_eq_some.mp hrs).1, hrs]

theorem flag_change_inv {β : Type} (fmt : BulletFmt) (st : LiState β)
    (b : Bool) (h : LiInv fmt st) :
    LiInv fmt ⟨st.doc, st.firstIdx, b⟩ :=
  fun i hi => h i hi

theorem liStep_inv {β : Type} (env : Env) (pb : Node → Nat → List β)
    (level : Nat) (fmt : BulletFmt) (paraCfg : Entry) (st : LiState β)
    (child : Node) (h : LiInv fmt st) :
    LiInv fmt (liStep env pb level fmt paraCfg st child) := by
  cases child with
  | text s =>
    simp only [liStep]
    split_ifs with hc
    · exact flag_change_inv fmt _ false
        (appendRuns_inv fmt _ _ (ensureBullet_inv fmt st h))
    · exact h
  | elem tag attrs cs =>
    simp only [liStep]
    split_ifs with hc hfl
    · exact flag_change_inv fmt _ false
        (appendRuns_inv fmt _ _ (ensureBullet_inv fmt st h))
    · exact doc_append_inv fmt (ensureBullet fmt st) _ false
        (ensureBullet_inv fmt st h)
    · exact doc_append_inv fmt st _ false h

theorem foldl_liStep_inv {β : Type} (env : Env) (pb : Node → Nat → List β)
    (level : Nat) (fmt : BulletFmt) (paraCfg : Entry) :
    ∀ (contents : List Node) (st : LiState β), LiInv fmt st →
      LiInv fmt (contents.foldl (liStep env pb level fmt paraCfg) st) := by
  intro contents
  induction contents with
  | nil => exact fun st h => h
  | cons c cs ih =>
    intro st h
    exact ih _ (liStep_inv env pb level fmt paraCfg st c h)

/-- Claim C8: for every list item content, every nesting depth and list
kind, the item's bullet paragraph exists and carries exactly the hanging
layout the converter sets: the Word list style of the list kind, left
indent 1.27 cm times the depth (strictly increasing in the depth) and
first-line indent -0.635 cm. -/
theorem c8_list_item_indent {β : Type} (env : Env)
    (pb : Node → Nat → List β) (contents : List Node) (level : Nat)
    (tag : String) :
    (∃ rs, bulletParaOf env pb contents level tag =
      some (.listPara (bulletFmt tag level) rs)) ∧
    bulletFmt tag level =
      ⟨listStyleName tag, liLeftIndentCm level, liFirstLineIndentCm⟩ ∧
    liLeftIndentCm level = (127 / 100) * level ∧
    liFirstLineIndentCm = -(127 / 200) ∧
    (∀ d1 d2 : Nat, d1 < d2 → liLeftIndentCm d1 < liLeftIndentCm d2) := by
  refine ⟨?_, rfl, rfl, rfl, ?_⟩
  · have hinv0 : LiInv (bulletFmt tag level)
        (⟨[], none, true⟩ : LiState β) := by
      intro i hi
      cases hi
    have hinv := foldl_liStep_inv env pb level (bulletFmt tag level)
      (paragraphCfg env.styles) contents ⟨[], none, true⟩ hinv0
    have hkey : bulletParaOf env pb contents level tag =
        (ensureBullet (bulletFmt tag level)
          (contents.foldl (liStep env pb level (bulletFmt tag level)
            (paragraphCfg env.styles)) ⟨[], none, true⟩)).firstIdx.bind
          (fun j => (ensureBullet (bulletFmt tag level)
            (contents.foldl (liStep env pb level (bulletFmt tag level)
              (paragraphCfg env.styles)) ⟨[], none, true⟩)).doc.get? j) := rfl
    rw [hkey]
    cases hf : (contents.foldl (liStep env pb level (bulletFmt tag level)
        (paragraphCfg env.styles)) (⟨[], none, true⟩ : LiState β)).firstIdx with
    | some i =>
      obtain ⟨rs, hrs⟩ := hinv i hf
      rw [ensureBullet_some _ _ i hf, hf]
      exact ⟨rs, hrs⟩
    | none =>
      rw [ensureBullet_none _ _ hf]
      exact ⟨[], List.get?_concat_length _ _⟩
  · intro d1 d2 hd
    unfold liLeftIndentCm
    have hcast : (d1 : ℚ) < (d2 : ℚ) := by exact_mod_cast hd
    have hpos : (0 : ℚ) < 127 / 100 := by norm_num
    exact mul_lt_mul_of_pos_left hcast hpos

/-- Witness for c8_list_item_indent: an empty item of an unordered list at
depth 2, and the strict growth of the indent from depth 0 to depth 1. -/
theorem c8_list_item_indent_witness :
    (∃ rs, bulletParaOf
        ⟨DEFAULT_STYLES_CONFIG, [], fun _ => false, fun x => x, fun _ => false⟩
        (fun _ _ => ([] : List Unit)) [] 2 "ul" =
      some (.listPara (bulletFmt "ul" 2) rs)) ∧
    ((0 : Nat) < 1 ∧ liLeftIndentCm 0 < liLeftIndentCm 1) :=
  ⟨(c8_list_item_indent
      ⟨DEFAULT_STYLES_CONFIG, [], fun _ => false, fun x => x, fun _ => false⟩
      (fun _ _ => ([] : List Unit)) [] 2 "ul").1,
    ⟨by decide,
      (c8_list_item_indent
        ⟨DEFAULT_STYLES_CONFIG, [], fun _ => false, fun x => x, fun _ => false⟩
        (fun _ _ => ([] : List Unit)) [] 2 "ul").2.2.2.2 0 1 (by decide)⟩⟩

theorem liStep_whitespace {β : Type} (env : Env) (pb : Node → Nat → List β)
    (level : Nat) (fmt : BulletFmt) (paraCfg : Entry) (st : LiState β)
    (s : List Char) (hs : pyStrip s = []) :
    liStep env pb level fmt paraCfg st (.text s) = st := by
  simp [liStep, hs]

/-- Claim C3: a list item with no content at all (no children, or only
whitespace-only text children) emits exactly one paragraph, bearing the
list style of the enclosing list kind ('ListBullet' for ul, 'ListNumber'
otherwise) and the item's hanging indents — never zero paragraphs. -/
theorem c3_empty_list_item {β : Type} (env : Env)
    (pb : Node → Nat → List β) (contents : List Node) (level : Nat)
    (tag : String)
    (h : ∀ c ∈ contents, ∃ s, c = Node.text s ∧ pyStrip s = []) :
    processListItemContent env pb contents level tag =
      [.listPara (bulletFmt tag level) []] ∧
    listStyleName tag = (if tag = "ul" then "ListBullet" else "ListNumber") := by
  refine ⟨?_, rfl⟩
  have hfold : ∀ (cs : List Node), (∀ c ∈ cs, ∃ s, c = Node.text s ∧ pyStrip s = []) →
      ∀ st : LiState β,
        cs.foldl (liStep env pb level (bulletFmt tag level)
          (paragraphCfg env.styles)) st = st := by
    intro cs
    induction cs with
    | nil => intro _ st; rfl
    | cons c cs2 ih =>
      intro hcs st
      obtain ⟨s, rfl, hs⟩ := hcs c (List.mem_cons_self _ _)
      show cs2.foldl _ (liStep env pb level (bulletFmt tag level)
        (paragraphCfg env.styles) st (.text s)) = st
      rw [liStep_whitespace env pb level _ _ st s hs]
      exact ih (fun c2 hc2 => hcs c2 (List.mem_cons_of_mem _ hc2)) st
  unfold processListItemContent processListItemStates
  show (ensureBullet (bulletFmt tag level)
    (contents.foldl (liStep env pb level (bulletFmt tag level)
      (paragraphCfg env.styles)) ⟨[], none, true⟩)).doc =
    [LiBlock.listPara (bulletFmt tag level) []]
  rw [hfold contents h ⟨[], none, true⟩]
  rfl

/-- Witness for c3_empty_list_item: the empty item of an unordered list at
depth 0. -/
theorem c3_empty_list_item_witness :
    processListItemContent
        ⟨DEFAULT_STYLES_CONFIG, [], fun _ => false, fun x => x, fun _ => false⟩
        (fun _ _ => ([] : List Unit)) [] 0 "ul" =
      [.listPara (bulletFmt "ul" 0) []] :=
  (c3_empty_list_item
    ⟨DEFAULT_STYLES_CONFIG, [], fun _ => false, fun x => x, fun _ => false⟩
    (fun _ _ => ([] : List Unit)) [] 0 "ul" (by simp)).1

end MdToWord
